import Mathlib

/-
Shallow embedding of the ADF parser (Rust implementation: lexer.rs, parser.rs,
document.rs, value.rs, error.rs) and verification of its specification claims.
Strings are modelled as lists of characters; Rust HashMap objects are modelled
as association lists with replace-or-append insertion (HashMap iteration order
is modelled as insertion order; all proved facts are lookup-based and therefore
order-insensitive). Rust panics (expect) are modelled with Option; fallible
operations return Except.
-/

namespace ADF

abbrev Str := List Char

/-- Rust str::trim_start (whitespace from the left). -/
def trimStart (s : Str) : Str := s.dropWhile Char.isWhitespace

/-- Rust str::trim_end (whitespace from the right). -/
def trimEnd (s : Str) : Str := (s.reverse.dropWhile Char.isWhitespace).reverse

/-- Rust str::trim. -/
def trim (s : Str) : Str := trimEnd (trimStart s)

/-- Rust str::split(c): split a character list at every occurrence of c. -/
def splitChar (c : Char) : Str → List Str
  | [] => [[]]
  | x :: rest =>
    match splitChar c rest with
    | [] => [[]]
    | h :: t => if x = c then [] :: h :: t else (x :: h) :: t

/-- Last index of character c in s (Rust str::rfind). -/
def rfindIdx (s : Str) (c : Char) : Option Nat :=
  match s.reverse.findIdx? (· = c) with
  | some i => some (s.length - 1 - i)
  | none => none

/-- Join string fragments with a newline (Rust Vec::join with newline). -/
def joinNL (parts : List Str) : Str := List.intercalate ['\n'] parts

/-- Rust str::lines: split on newline, dropping one trailing empty line, and
stripping a carriage return left at the end of each line. -/
def linesOf (text : Str) : List Str :=
  let ls := splitChar '\n' text
  let ls := if ls.getLast? = some [] then ls.dropLast else ls
  ls.map (fun l => if l.getLast? = some '\r' then l.dropLast else l)

/-- value.rs Value: recursive tagged union. Floats are represented by the raw
literal that parsed as a 64-bit float (no floating-point arithmetic is needed
by any claim). Objects are association lists standing for HashMap. -/
inductive Value where
  | str : Str → Value
  | int : Int → Value
  | float : Str → Value
  | bool : Bool → Value
  | null : Value
  | arr : List Value → Value
  | obj : List (Str × Value) → Value

abbrev Obj := List (Str × Value)

/-- HashMap::get, modelled as first-match association-list lookup. -/
def lookupObj : Obj → Str → Option Value
  | [], _ => none
  | (k, v) :: rest, key => if k = key then some v else lookupObj rest key

/-- HashMap::insert: replace the binding of the key if present, else append. -/
def insertObj : Obj → Str → Value → Obj
  | [], key, v => [(key, v)]
  | (k, w) :: rest, key, v =>
    if k = key then (key, v) :: rest else (k, w) :: insertObj rest key v

/-- Value::is_object as a Boolean. -/
def isObjV : Value → Bool
  | .obj _ => true
  | _ => false

/-- error.rs AdfError (the variants reachable in the embedded core), plus a
marker for a Rust panic (expect). -/
inductive Fail where
  | parseError : Nat → Str → Fail
  | validationError : Str → Str → Fail
  | panicked : Str → Fail

/-- The message built by set and set_nested_value for a non-object
intermediate path segment. -/
def notObjectMsg (part : Str) : Str :=
  ("Cannot set nested value: ").data ++ part ++ (" is not an object").data

/-- lexer.rs TokenType. -/
inductive TokType where
  | blankLine
  | absoluteHeader
  | relativeHeader
  | keyValue
  | scalarValue
  | multilineStart
  | multilineContent
  | multilineEnd
deriving DecidableEq, Repr

/-- lexer.rs Token. -/
structure Token where
  tokType : TokType
  lineNumber : Nat
  rawLine : Str
  path : Option Str := none
  isAbsolute : Option Bool := none
  key : Option Str := none
  value : Option Str := none
  constraint : Option Str := none
  quoteCount : Option Nat := none
deriving DecidableEq, Repr

/-- lexer.rs Lexer state: the multiline flag and active delimiter length. -/
structure LexState where
  inMultiline : Bool
  multilineQuoteCount : Nat
deriving DecidableEq, Repr

/-- Lexer::count_leading_quotes. -/
def countLeadingQuotes (s : Str) : Nat := (s.takeWhile (· = '"')).length

/-- Lexer::ends_with_quotes: the last count characters are all quote
characters (false when the line is shorter than count). -/
def endsWithQuotes (s : Str) (count : Nat) : Bool :=
  if s.length < count then false
  else (s.reverse.take count).all (· = '"')

/-- Lexer::extract_quoted_value: the text strictly between the first and last
quote_count characters. -/
def extractQuotedValue (s : Str) (quoteCount : Nat) : Str :=
  if s.length < quoteCount * 2 then []
  else (s.take (s.length - quoteCount)).drop quoteCount

/-- Lexer::parse_constraint: the text between the last opening and last
closing parenthesis of the trimmed input, if non-empty. -/
def parseConstraint (s : Str) : Option Str :=
  let t := trim s
  if t = [] then none
  else
    match rfindIdx t '(', rfindIdx t ')' with
    | some op, some cl =>
      if cl < op then none
      else
        let c := trim ((t.take cl).drop (op + 1))
        if c = [] then none else some c
    | _, _ => none

/-- Lexer::extract_constraint_after_quotes. -/
def extractConstraintAfterQuotes (s : Str) (quoteCount : Nat) : Option Str :=
  if s.length ≤ quoteCount * 2 then none
  else parseConstraint (s.drop (s.length - quoteCount))

/-- Lexer::extract_constraint_after_line. -/
def extractConstraintAfterLine (line : Str) (quoteCount : Nat) : Option Str :=
  if line.length < quoteCount then none
  else parseConstraint (line.drop (line.length - quoteCount))

/-- Lexer::parse_value_and_constraint. -/
def parseValueAndConstraint (s : Str) : Str × Option Str :=
  match parseConstraint s with
  | some c =>
    match rfindIdx s '(' with
    | some parenPos => (trimEnd (s.take parenPos), some c)
    | none => (trim s, none)
  | none => (trim s, none)

/-- Lexer::is_valid_path: every dot-separated part is either double-quoted or
made of alphanumeric and underscore characters only. -/
def isValidPath (path : Str) : Bool :=
  if path = [] then true
  else (splitChar '.' path).all (fun part =>
    (part.head? = some '"' && part.getLast? = some '"')
    || part.all (fun c => c.isAlphanum || c = '_'))

/-- Lexer::try_parse_header. -/
def tryParseHeader (line : Str) (lineNumber : Nat) : Option Token :=
  let stripped := trim line
  if stripped.getLast? ≠ some ':' then none
  else
    let p0 := trim (stripped.take (stripped.length - 1))
    let isAbs := p0.head? = some '#'
    let pathPart := if isAbs then trim (p0.drop 1) else p0
    if pathPart = [] ∧ isAbs then
      some { tokType := .absoluteHeader, lineNumber := lineNumber,
             rawLine := line, path := some [], isAbsolute := some true }
    else if pathPart = [] then none
    else if ¬ isValidPath pathPart then none
    else
      some { tokType := if isAbs then .absoluteHeader else .relativeHeader,
             lineNumber := lineNumber, rawLine := line,
             path := some pathPart, isAbsolute := some isAbs }

/-- The raw value region of a key/value line: everything after the first
equals sign, left-trimmed only. -/
def rawValueOf (line : Str) : Str :=
  trimStart (line.drop (line.findIdx (· = '=') + 1))

/-- The key of a key/value line: everything before the first equals sign,
trimmed. -/
def keyOf (line : Str) : Str := trim (line.take (line.findIdx (· = '=')))

/-- Lexer::parse_key_value (the line is known to contain an equals sign). -/
def parseKeyValue (st : LexState) (line : Str) (lineNumber : Nat) :
    Token × LexState :=
  let key := keyOf line
  let raw := rawValueOf line
  let quoteCount := countLeadingQuotes raw
  if quoteCount > 0 then
    if raw.length > quoteCount * 2 ∧ endsWithQuotes raw quoteCount then
      ({ tokType := .keyValue, lineNumber := lineNumber, rawLine := line,
         key := some key, value := some (extractQuotedValue raw quoteCount),
         constraint := extractConstraintAfterQuotes raw quoteCount },
       ⟨false, quoteCount⟩)
    else
      ({ tokType := .multilineStart, lineNumber := lineNumber, rawLine := line,
         key := some key,
         value := some (if raw.length > quoteCount then raw.drop quoteCount else []),
         quoteCount := some quoteCount },
       ⟨true, quoteCount⟩)
  else
    let vc := parseValueAndConstraint raw
    ({ tokType := .keyValue, lineNumber := lineNumber, rawLine := line,
       key := some key, value := some vc.1, constraint := vc.2 },
     st)

/-- Lexer::handle_multiline_continuation. -/
def handleMultilineContinuation (st : LexState) (line : Str)
    (lineNumber : Nat) : Token × LexState :=
  if endsWithQuotes line st.multilineQuoteCount then
    ({ tokType := .multilineEnd, lineNumber := lineNumber, rawLine := line,
       value := some (if st.multilineQuoteCount ≤ line.length then
         trimEnd (line.take (line.length - st.multilineQuoteCount)) else []),
       constraint := extractConstraintAfterLine line st.multilineQuoteCount },
     ⟨false, st.multilineQuoteCount⟩)
  else
    ({ tokType := .multilineContent, lineNumber := lineNumber, rawLine := line,
       value := some line },
     st)

/-- Lexer::tokenize_line. -/
def tokenizeLine (st : LexState) (line : Str) (lineNumber : Nat) :
    Token × LexState :=
  if st.inMultiline then handleMultilineContinuation st line lineNumber
  else if trim line = [] then
    ({ tokType := .blankLine, lineNumber := lineNumber, rawLine := line }, st)
  else
    match tryParseHeader line lineNumber with
    | some t => (t, st)
    | none =>
      if line.contains '=' then parseKeyValue st line lineNumber
      else
        ({ tokType := .scalarValue, lineNumber := lineNumber, rawLine := line,
           value := some (trim line) }, st)

/-- Lexer::tokenize, line by line with 1-based line numbers. -/
def tokenizeGo (st : LexState) : List Str → Nat → List Token
  | [], _ => []
  | l :: rest, n =>
    let r := tokenizeLine st l n
    r.1 :: tokenizeGo r.2 rest (n + 1)

/-- Lexer::tokenize applied to a whole text. -/
def tokenize (text : Str) : List Token := tokenizeGo ⟨false, 0⟩ (linesOf text) 1

/-- document.rs Document: the canonical absolute tree and the relative
sections side channel. -/
structure Document where
  root : Obj
  relativeSections : Obj

/-- Document::unquote_key. -/
def unquoteKey (key : Str) : Str :=
  if key.head? = some '"' ∧ key.getLast? = some '"' ∧ 2 ≤ key.length then
    (key.drop 1).dropLast
  else key

/-- Document::parse_path: split on dots outside double quotes, dropping empty
segments and unquoting quoted segments. -/
def parsePathGo (inQuotes : Bool) (cur : Str) (acc : List Str) : Str → List Str
  | [] => if cur = [] then acc else acc ++ [unquoteKey cur]
  | c :: rest =>
    if c = '"' then parsePathGo (!inQuotes) (cur ++ [c]) acc rest
    else if c = '.' ∧ ¬ inQuotes then
      if cur = [] then parsePathGo inQuotes [] acc rest
      else parsePathGo inQuotes [] (acc ++ [unquoteKey cur]) rest
    else parsePathGo inQuotes (cur ++ [c]) acc rest

/-- Document::parse_path. -/
def parsePath (path : Str) : List Str := parsePathGo false [] [] path

/-- The walk of Document::get over parsed path segments. -/
def getParts : Value → List Str → Option Value
  | v, [] => some v
  | .obj m, p :: rest =>
    match lookupObj m p with
    | some v => getParts v rest
    | none => none
  | _, _ :: _ => none

/-- Document::get. -/
def docGet (d : Document) (path : Str) : Option Value :=
  if path = [] then some (.obj d.root)
  else getParts (.obj d.root) (parsePath path)

/-- The loop of Document::set over parsed path segments: create intermediate
objects as needed, fail with a validation error naming the full path when an
intermediate value is not an object. -/
def setPartsDoc (fullPath : Str) : Obj → List Str → Value → Except Fail Obj
  | o, [], _ => .ok o
  | o, [p], v => .ok (insertObj o p v)
  | o, p :: q :: rest, v =>
    match (lookupObj o p).getD (.obj []) with
    | .obj child =>
      match setPartsDoc fullPath child (q :: rest) v with
      | .ok child' => .ok (insertObj o p (.obj child'))
      | .error e => .error e
    | _ => .error (.validationError fullPath (notObjectMsg p))

/-- Document::set. -/
def docSet (d : Document) (path : Str) (v : Value) : Except Fail Document :=
  if path = [] then
    match v with
    | .obj o => .ok ⟨o, d.relativeSections⟩
    | _ => .ok d
  else
    match setPartsDoc path d.root (parsePath path) v with
    | .ok root' => .ok ⟨root', d.relativeSections⟩
    | .error e => .error e

mutual

/-- Document::deep_merge_objects: the result starts from the base; nested
objects merge recursively, any other overlay value replaces the base value. -/
def deepMergeObjects (base : Obj) : Obj → Obj
  | [] => base
  | (k, ov) :: rest =>
    deepMergeObjects (insertObj base k (overlayValue base k ov)) rest
termination_by o => sizeOf o

/-- The value one overlay entry leaves at its key during deep merge: a
recursive merge when it and the base value are both objects, the overlay
value itself otherwise. -/
def overlayValue (base : Obj) (k : Str) : Value → Value
  | .obj oo =>
    match lookupObj base k with
    | some (.obj bo) => .obj (deepMergeObjects bo oo)
    | _ => .obj oo
  | ov => ov
termination_by v => sizeOf v

end

/-- Document::merge. -/
def docMerge (d other : Document) : Document :=
  ⟨deepMergeObjects d.root other.root, d.relativeSections⟩

/-- Document::merge_at_path. -/
def mergeAtPath (d : Document) (path : Str) (v : Value) :
    Except Fail Document :=
  match docGet d path with
  | some (.obj existing) =>
    match v with
    | .obj newObj => docSet d path (.obj (deepMergeObjects existing newObj))
    | _ => docSet d path v
  | _ => docSet d path v

/-- The loop of Document::add_relative_section: like set, but an intermediate
non-object makes the Rust code panic through expect, modelled as none. -/
def addRelGo : Obj → List Str → Value → Option Obj
  | o, [], _ => some o
  | o, [p], v => some (insertObj o p v)
  | o, p :: q :: rest, v =>
    match (lookupObj o p).getD (.obj []) with
    | .obj child => (addRelGo child (q :: rest) v).map (insertObj o p ∘ .obj)
    | _ => none

/-- Document::add_relative_section. -/
def addRelativeSection (d : Document) (path : Str) (v : Value) :
    Option Document :=
  (addRelGo d.relativeSections (parsePath path) v).map (⟨d.root, ·⟩)

/-- parser.rs ParseOptions / Parser configuration. -/
structure ParserCfg where
  inferTypes : Bool
  strict : Bool
deriving DecidableEq, Repr

/-- The default parse options: infer_types on, strict off. -/
def defaultCfg : ParserCfg := ⟨true, false⟩

/-- Rust str::to_lowercase, on the ASCII fragment the format uses. -/
def lowerStr (s : Str) : Str := s.map Char.toLower

/-- The natural number denoted by a run of decimal digits. -/
def natFromDigits (s : Str) : Nat :=
  s.foldl (fun a c => a * 10 + (c.toNat - '0'.toNat)) 0

/-- Rust i64::from_str: optional sign, at least one ASCII digit, and the
value must fit in a 64-bit signed integer. -/
def parseI64 (s : Str) : Option Int :=
  let sd : Int × Str :=
    match s with
    | '+' :: r => (1, r)
    | '-' :: r => (-1, r)
    | _ => (1, s)
  if sd.2 = [] ∨ ¬ sd.2.all Char.isDigit then none
  else
    let n : Int := sd.1 * (natFromDigits sd.2 : Int)
    if -(2 ^ 63) ≤ n ∧ n ≤ 2 ^ 63 - 1 then some n else none

/-- Mantissa of the Rust f64::from_str grammar: digits, or digits with one
dot, with at least one digit overall. -/
def isF64Mantissa (s : Str) : Bool :=
  match splitChar '.' s with
  | [a] => a ≠ [] && a.all Char.isDigit
  | [a, b] => a.all Char.isDigit && b.all Char.isDigit && (a ≠ [] || b ≠ [])
  | _ => false

/-- Exponent of the Rust f64::from_str grammar (after the letter e). -/
def isF64Exp (s : Str) : Bool :=
  let d := match s with
    | '+' :: r => r
    | '-' :: r => r
    | _ => s
  d ≠ [] && d.all Char.isDigit

/-- Rust f64::from_str acceptance: optional sign, then inf, infinity, nan
(case-insensitive) or a mantissa with optional exponent. -/
def isF64Lit (s : Str) : Bool :=
  let low := lowerStr s
  let body := match low with
    | '+' :: r => r
    | '-' :: r => r
    | _ => low
  body = ("inf").data || body = ("infinity").data || body = ("nan").data ||
    (match splitChar 'e' body with
     | [m] => isF64Mantissa m
     | [m, ex] => isF64Mantissa m && isF64Exp ex
     | _ => false)

/-- Parser::infer_type: Boolean, then 64-bit integer, then 64-bit float,
else the literal string; disabled inference keeps the string. -/
def inferType (cfg : ParserCfg) (value : Str) : Value :=
  if ¬ cfg.inferTypes then .str value
  else if lowerStr value = ("true").data then .bool true
  else if lowerStr value = ("false").data then .bool false
  else
    match parseI64 value with
    | some n => .int n
    | none => if isF64Lit value then .float value else .str value

/-- Key/value content in the sense of section classification: a KeyValue or
MultilineStart token. -/
def isContentTok (t : Token) : Bool :=
  t.tokType = .keyValue || t.tokType = .multilineStart

/-- A BlankLine token. -/
def isBlankTok (t : Token) : Bool := t.tokType = .blankLine

/-- Parser::has_blank_line_separators, with the three loop flags threaded
explicitly (has_blank, found_content, has_content_after_blank). -/
def hbsGo (hasBlank foundContent hasAfter : Bool) : List Token → Bool
  | [] => hasBlank && hasAfter
  | t :: rest =>
    if isBlankTok t then
      if foundContent then hbsGo true false hasAfter rest
      else hbsGo hasBlank foundContent hasAfter rest
    else if isContentTok t then
      hbsGo hasBlank true (hasAfter || hasBlank) rest
    else hbsGo hasBlank foundContent hasAfter rest

/-- Parser::has_blank_line_separators. -/
def hasBlankLineSeparators (tokens : List Token) : Bool :=
  hbsGo false false false tokens

/-- The scanning loop of Parser::collect_multiline over the tokens after the
MultilineStart: accumulate MultilineContent values, stop at MultilineEnd
(adding its non-empty value), skip anything else; returns the collected
fragments and the tokens after the stopping point. -/
def collectMLGo : List Token → List Str → List Str × List Token
  | [], acc => (acc.reverse, [])
  | t :: rest, acc =>
    match t.tokType with
    | .multilineContent =>
      match t.value with
      | some v => collectMLGo rest (v :: acc)
      | none => collectMLGo rest acc
    | .multilineEnd =>
      match t.value with
      | some v => (if v ≠ [] then (v :: acc).reverse else acc.reverse, rest)
      | none => (acc.reverse, rest)
    | _ => collectMLGo rest acc

/-- Parser::collect_multiline from a MultilineStart token: join the start
fragment, content lines and end fragment with newlines; also return the
tokens at which section scanning resumes. -/
def collectMultiline (start : Token) (rest : List Token) : Str × List Token :=
  let acc0 : List Str :=
    match start.value with
    | some v => if v ≠ [] then [v] else []
    | none => []
  let r := collectMLGo rest acc0
  (joinNL r.1, r.2)

/-- Parser::set_nested_value, descent over the dot-split key inside one
object under construction. -/
def setNestedGo : Obj → List Str → Value → Except Fail Obj
  | o, [], _ => .ok o
  | o, [p], v => .ok (insertObj o p v)
  | o, p :: q :: rest, v =>
    match (lookupObj o p).getD (.obj []) with
    | .obj child =>
      match setNestedGo child (q :: rest) v with
      | .ok child' => .ok (insertObj o p (.obj child'))
      | .error e => .error e
    | _ => .error (.parseError 0 (notObjectMsg p))

/-- Parser::set_nested_value. -/
def setNestedValue (o : Obj) (key : Str) (v : Value) : Except Fail Obj :=
  if key.contains '.' then setNestedGo o (splitChar '.' key) v
  else .ok (insertObj o key v)

/-- Parser::parse_object as a single pass: the optional third argument holds
the state of an in-progress multiline collection (the start token key and the
reversed fragments gathered so far), mirroring the index jump performed by
collect_multiline in the Rust loop. -/
def parseObjectGo (cfg : ParserCfg) (o : Obj) :
    Option (Option Str × List Str) → List Token → Except Fail Obj
  | none, [] => .ok o
  | none, t :: rest =>
    match t.tokType with
    | .keyValue =>
      match t.key, t.value with
      | some k, some v =>
        match setNestedValue o k (inferType cfg v) with
        | .ok o' => parseObjectGo cfg o' none rest
        | .error e => .error e
      | _, _ => parseObjectGo cfg o none rest
    | .multilineStart =>
      let acc0 : List Str :=
        match t.value with
        | some v => if v ≠ [] then [v] else []
        | none => []
      parseObjectGo cfg o (some (t.key, acc0)) rest
    | _ => parseObjectGo cfg o none rest
  | some kacc, [] =>
    match kacc.1 with
    | some k =>
      match setNestedValue o k (.str (joinNL kacc.2.reverse)) with
      | .ok o' => .ok o'
      | .error e => .error e
    | none => .ok o
  | some kacc, t :: rest =>
    match t.tokType with
    | .multilineContent =>
      match t.value with
      | some v => parseObjectGo cfg o (some (kacc.1, v :: kacc.2)) rest
      | none => parseObjectGo cfg o (some kacc) rest
    | .multilineEnd =>
      let parts :=
        match t.value with
        | some v => if v ≠ [] then (v :: kacc.2).reverse else kacc.2.reverse
        | none => kacc.2.reverse
      match kacc.1 with
      | some k =>
        match setNestedValue o k (.str (joinNL parts)) with
        | .ok o' => parseObjectGo cfg o' none rest
        | .error e => .error e
      | none => parseObjectGo cfg o none rest
    | _ => parseObjectGo cfg o (some kacc) rest

/-- Parser::parse_object. -/
def parseObject (cfg : ParserCfg) (tokens : List Token) : Except Fail Obj :=
  parseObjectGo cfg [] none tokens

/-- Parser::parse_object_array as a single pass, in the same style as
parse_object: blank lines flush the current non-empty object, key/value pairs
insert directly (no nested-key handling here), multiline values insert as
strings. -/
def parseObjectArrayGo (cfg : ParserCfg) (cur : Obj) (objs : List Value) :
    Option (Option Str × List Str) → List Token → Except Fail (List Value)
  | none, [] => .ok (if cur.isEmpty then objs else objs ++ [.obj cur])
  | none, t :: rest =>
    match t.tokType with
    | .blankLine =>
      if cur.isEmpty then parseObjectArrayGo cfg cur objs none rest
      else parseObjectArrayGo cfg [] (objs ++ [.obj cur]) none rest
    | .keyValue =>
      match t.key, t.value with
      | some k, some v =>
        parseObjectArrayGo cfg (insertObj cur k (inferType cfg v)) objs none rest
      | _, _ => parseObjectArrayGo cfg cur objs none rest
    | .multilineStart =>
      let acc0 : List Str :=
        match t.value with
        | some v => if v ≠ [] then [v] else []
        | none => []
      parseObjectArrayGo cfg cur objs (some (t.key, acc0)) rest
    | _ => parseObjectArrayGo cfg cur objs none rest
  | some kacc, [] =>
    let cur' :=
      match kacc.1 with
      | some k => insertObj cur k (.str (joinNL kacc.2.reverse))
      | none => cur
    .ok (if cur'.isEmpty then objs else objs ++ [.obj cur'])
  | some kacc, t :: rest =>
    match t.tokType with
    | .multilineContent =>
      match t.value with
      | some v => parseObjectArrayGo cfg cur objs (some (kacc.1, v :: kacc.2)) rest
      | none => parseObjectArrayGo cfg cur objs (some kacc) rest
    | .multilineEnd =>
      let parts :=
        match t.value with
        | some v => if v ≠ [] then (v :: kacc.2).reverse else kacc.2.reverse
        | none => kacc.2.reverse
      match kacc.1 with
      | some k =>
        parseObjectArrayGo cfg (insertObj cur k (.str (joinNL parts))) objs none rest
      | none => parseObjectArrayGo cfg cur objs none rest
    | _ => parseObjectArrayGo cfg cur objs (some kacc) rest

/-- Parser::parse_object_array. -/
def parseObjectArray (cfg : ParserCfg) (tokens : List Token) :
    Except Fail (List Value) :=
  parseObjectArrayGo cfg [] [] none tokens

/-- An expect panic lifted into the parse result. -/
def liftPanic : Option Document → Except Fail Document
  | some d => .ok d
  | none => .error (.panicked ("Should be object").data)

/-- The section path of a field of a plain-object section: path.key, or just
key when the section path is empty. -/
def fieldPath (sectionPath key : Str) : Str :=
  if sectionPath = [] then key else sectionPath ++ '.' :: key

/-- The per-field merge loop of the absolute plain-object branch of
Parser::process_section. -/
def mergeFields (sectionPath : Str) : Document → Obj → Except Fail Document
  | doc, [] => .ok doc
  | doc, (k, v) :: rest =>
    match mergeAtPath doc (fieldPath sectionPath k) v with
    | .ok d => mergeFields sectionPath d rest
    | .error e => .error e

/-- The scalar-array branch of Parser::process_section. -/
def buildScalarArray (cfg : ParserCfg) (tokens : List Token)
    (sectionPath : Str) (isAbsolute : Bool) (doc : Document) :
    Except Fail Document :=
  let values :=
    ((tokens.filter (fun t => ¬ isBlankTok t)).filterMap (·.value)).map
      (inferType cfg)
  if isAbsolute then docSet doc sectionPath (.arr values)
  else liftPanic (addRelativeSection doc sectionPath (.arr values))

/-- The object-array branch of Parser::process_section. -/
def buildObjectArray (cfg : ParserCfg) (tokens : List Token)
    (sectionPath : Str) (isAbsolute : Bool) (doc : Document) :
    Except Fail Document :=
  match parseObjectArray cfg tokens with
  | .ok objects =>
    if isAbsolute then docSet doc sectionPath (.arr objects)
    else liftPanic (addRelativeSection doc sectionPath (.arr objects))
  | .error e => .error e

/-- The plain-object branch of Parser::process_section. -/
def buildPlainObject (cfg : ParserCfg) (tokens : List Token)
    (sectionPath : Str) (isAbsolute : Bool) (doc : Document) :
    Except Fail Document :=
  match parseObject cfg tokens with
  | .ok o =>
    if isAbsolute then mergeFields sectionPath doc o
    else liftPanic (addRelativeSection doc sectionPath (.obj o))
  | .error e => .error e

/-- Parser::process_section: classify the section shape and build it into the
document. -/
def processSection (cfg : ParserCfg) (tokens : List Token) (sectionPath : Str)
    (isAbsolute : Bool) (doc : Document) : Except Fail Document :=
  if tokens = [] then .ok doc
  else
    let content := tokens.filter (fun t => ¬ isBlankTok t)
    if content = [] then .ok doc
    else if content.any isContentTok then
      if hasBlankLineSeparators tokens then
        buildObjectArray cfg tokens sectionPath isAbsolute doc
      else buildPlainObject cfg tokens sectionPath isAbsolute doc
    else buildScalarArray cfg tokens sectionPath isAbsolute doc

/-- A section header token. -/
def isHeaderTok (t : Token) : Bool :=
  t.tokType = .absoluteHeader || t.tokType = .relativeHeader

/-- Parser::parse_tokens: every header closes the pending section; tokens
before the first header form the implicit absolute root section; the final
pending section is processed at end of input. -/
def parseTokensAux (cfg : ParserCfg) (doc : Document) (curPath : Str)
    (curAbs : Bool) (pending : List Token) : List Token → Except Fail Document
  | [] =>
    if pending = [] then .ok doc
    else processSection cfg pending curPath curAbs doc
  | t :: rest =>
    if isHeaderTok t then
      match
        (if pending = [] then .ok doc
         else processSection cfg pending curPath curAbs doc : Except Fail Document)
      with
      | .ok d =>
        parseTokensAux cfg d (t.path.getD []) (t.isAbsolute.getD false) [] rest
      | .error e => .error e
    else parseTokensAux cfg doc curPath curAbs (pending ++ [t]) rest

/-- Parser::parse_tokens on a fresh document. -/
def parseTokens (cfg : ParserCfg) (tokens : List Token) :
    Except Fail Document :=
  parseTokensAux cfg ⟨[], []⟩ [] true [] tokens

/-- Parser::parse: tokenize, then build the document. -/
def parseText (cfg : ParserCfg) (text : Str) : Except Fail Document :=
  parseTokens cfg (tokenize text)

/-- The crate-level parse with default options. -/
def adfParse (text : Str) : Except Fail Document := parseText defaultCfg text

/-- The length of the maximal run of quote characters ending the line (the
run notion used by the quote-matching claims). -/
def trailingQuoteRun (s : Str) : Nat := (s.reverse.takeWhile (· = '"')).length

/-- The text strictly between a leading run of n quotes and a trailing run of
n quotes. -/
def betweenQuoteRuns (s : Str) (n : Nat) : Str :=
  (s.take (s.length - n)).drop n

/-- No intermediate segment of the path already holds a non-object value in
the given object tree (the proviso of the set/get round-trip claim). -/
def noConflictB : Obj → List Str → Bool
  | _, [] => true
  | _, [_] => true
  | o, p :: q :: rest =>
    match lookupObj o p with
    | none => true
    | some (.obj child) => noConflictB child (q :: rest)
    | some _ => false

/-- The key list of an object. -/
def keysOf (o : Obj) : List Str := o.map Prod.fst

/-- The positional object-array condition as the claim states it: some
BlankLine token has key/value content somewhere before it and further
key/value content somewhere after it within the section. -/
def IsObjectArraySplit (tokens : List Token) : Prop :=
  ∃ l1 c1 l2 b l3 c2 l4,
    tokens = l1 ++ c1 :: l2 ++ b :: l3 ++ c2 :: l4 ∧
    isContentTok c1 = true ∧ isBlankTok b = true ∧ isContentTok c2 = true

/-- Phase three of the blank-separator scan: some later token is key/value
content. -/
def sepC (ts : List Token) : Bool := ts.any isContentTok

/-- Phase two of the blank-separator scan: after the first blank line, some
later token is key/value content. -/
def sepB : List Token → Bool
  | [] => false
  | t :: rest => if isBlankTok t then sepC rest else sepB rest

/-- Phase one of the blank-separator scan: after the first key/value token,
a blank line is followed by further key/value content. -/
def sepA : List Token → Bool
  | [] => false
  | t :: rest => if isContentTok t then sepB rest else sepA rest

/-- A path or key segment that is free of dots and quotes (and non-empty), so
that path splitting treats it as a single literal segment. -/
def simpleSeg (s : Str) : Bool := ¬ s.isEmpty && ¬ s.contains '.' && ¬ s.contains '"'

/-- A minimal KeyValue token, as produced for a simple key = value line. -/
def kvTok (k v : Str) : Token :=
  { tokType := .keyValue, lineNumber := 0, rawLine := [],
    key := some k, value := some v }

/-- A minimal BlankLine token. -/
def blankTok : Token := { tokType := .blankLine, lineNumber := 0, rawLine := [] }

/-- A minimal absolute header token for a path. -/
def absHdrTok (p : Str) : Token :=
  { tokType := .absoluteHeader, lineNumber := 0, rawLine := [],
    path := some p, isAbsolute := some true }

/-- A minimal relative header token for a path. -/
def relHdrTok (p : Str) : Token :=
  { tokType := .relativeHeader, lineNumber := 0, rawLine := [],
    path := some p, isAbsolute := some false }

/-- KeyValue tokens for a list of key/raw-value pairs. -/
def kvToks (s : List (Str × Str)) : List Token := s.map (fun kv => kvTok kv.1 kv.2)

/-- First-match lookup in a key/raw-value pair list. -/
def lookupPairs : List (Str × Str) → Str → Option Str
  | [], _ => none
  | (k, v) :: rest, key => if k = key then some v else lookupPairs rest key

/-- The empty document. -/
def emptyDoc : Document := ⟨[], []⟩

/-- Insert a list of bindings into an object, left to right. -/
def insertAllObj (m : Obj) : Obj → Obj
  | [] => m
  | (k, v) :: rest => insertAllObj (insertObj m k v) rest

/-- The bindings of a key/raw-value section after type inference. -/
def inferPairs (cfg : ParserCfg) (s : List (Str × Str)) : Obj :=
  s.map (fun kv => (kv.1, inferType cfg kv.2))

/-- The object a plain-object section of simple key/value lines builds. -/
def objOfPairs (cfg : ParserCfg) (s : List (Str × Str)) : Obj :=
  insertAllObj [] (inferPairs cfg s)

theorem lookupObj_insert_self (o : Obj) (k : Str) (v : Value) :
    lookupObj (insertObj o k v) k = some v := by
  induction o with
  | nil => simp [insertObj, lookupObj]
  | cons h t ih =>
    obtain ⟨k0, v0⟩ := h
    by_cases hk : k0 = k
    · simp [insertObj, hk, lookupObj]
    · simp [insertObj, hk, lookupObj, ih]

theorem lookupObj_insert_ne (o : Obj) (k : Str) (v : Value) (k' : Str)
    (h : k' ≠ k) : lookupObj (insertObj o k v) k' = lookupObj o k' := by
  have h' : ¬ k = k' := fun hh => h hh.symm
  induction o with
  | nil => simp [insertObj, lookupObj, h']
  | cons hd t ih =>
    obtain ⟨k0, v0⟩ := hd
    by_cases hk : k0 = k
    · subst hk
      simp [insertObj, lookupObj, h']
    · simp only [insertObj, if_neg hk, lookupObj]
      by_cases hk' : k0 = k'
      · simp [hk']
      · simp [hk', ih]

theorem keysOf_insert_cases (o : Obj) (k : Str) (v : Value) :
    keysOf (insertObj o k v) = keysOf o ∨
    keysOf (insertObj o k v) = keysOf o ++ [k] := by
  induction o with
  | nil => exact Or.inr rfl
  | cons hd t ih =>
    obtain ⟨k0, v0⟩ := hd
    by_cases hk : k0 = k
    · subst hk
      exact Or.inl (by simp [insertObj, keysOf])
    · rcases ih with ih | ih
      · exact Or.inl (by simp [insertObj, hk, keysOf, keysOf] at ih ⊢; exact ih)
      · refine Or.inr ?_
        simp [insertObj, hk, keysOf] at ih ⊢
        exact ih

theorem mem_keysOf_insert (o : Obj) (k k' : Str) (v : Value)
    (h : k' ∈ keysOf o) : k' ∈ keysOf (insertObj o k v) := by
  rcases keysOf_insert_cases o k v with hc | hc
  · rw [hc]; exact h
  · rw [hc]; exact List.mem_append_left _ h

theorem lookupObj_eq_none_of_not_mem (o : Obj) (k : Str)
    (h : k ∉ keysOf o) : lookupObj o k = none := by
  induction o with
  | nil => simp [lookupObj]
  | cons hd t ih =>
    obtain ⟨k0, v0⟩ := hd
    simp only [keysOf, List.map_cons, List.mem_cons, not_or] at h
    have h' : ¬ k0 = k := fun hh => h.1 hh.symm
    simp [lookupObj, h', ih h.2]

theorem deepMerge_cons (base : Obj) (k : Str) (ov : Value) (rest : Obj) :
    deepMergeObjects base ((k, ov) :: rest) =
      deepMergeObjects (insertObj base k (overlayValue base k ov)) rest := by
  rw [deepMergeObjects]

theorem overlayValue_congr (b1 b2 : Obj) (k : Str) (ov : Value)
    (h : lookupObj b1 k = lookupObj b2 k) :
    overlayValue b1 k ov = overlayValue b2 k ov := by
  cases ov <;> simp only [overlayValue] <;> rw [h]

theorem lookup_deepMerge (overlay : Obj) (hO : (keysOf overlay).Nodup)
    (base : Obj) (k : Str) :
    lookupObj (deepMergeObjects base overlay) k =
      match lookupObj overlay k with
      | some ov => some (overlayValue base k ov)
      | none => lookupObj base k := by
  induction overlay generalizing base with
  | nil => rw [deepMergeObjects]; simp [lookupObj]
  | cons hd rest ih =>
    obtain ⟨k0, ov0⟩ := hd
    simp only [keysOf, List.map_cons, List.nodup_cons] at hO
    rw [deepMerge_cons, ih hO.2]
    by_cases hk : k0 = k
    · subst hk
      have hrest : lookupObj rest k0 = none :=
        lookupObj_eq_none_of_not_mem rest k0 hO.1
      simp [lookupObj, hrest, lookupObj_insert_self]
    · simp only [lookupObj, if_neg hk]
      rcases hr : lookupObj rest k with _ | ov
      · exact lookupObj_insert_ne base k0 _ k (fun hh => hk hh.symm)
      · exact congrArg some (overlayValue_congr _ _ k ov
          (lookupObj_insert_ne base k0 _ k (fun hh => hk hh.symm)))

theorem keys_deepMerge_superset (overlay base : Obj) (k : Str)
    (h : k ∈ keysOf base) : k ∈ keysOf (deepMergeObjects base overlay) := by
  induction overlay generalizing base with
  | nil => simpa [deepMergeObjects] using h
  | cons hd rest ih =>
    obtain ⟨k0, ov0⟩ := hd
    rw [deepMerge_cons]
    exact ih _ (mem_keysOf_insert base k0 k _ h)

/-- Claim C4: the deep merge of base B and overlay O keeps every key of B;
keys in both with two object values merge recursively; keys in both
otherwise take the overlay value (arrays and scalars replace wholesale);
keys only in O are added. -/
theorem c4_theorem (base overlay : Obj) (hO : (keysOf overlay).Nodup) :
    (∀ k, k ∈ keysOf base → k ∈ keysOf (deepMergeObjects base overlay)) ∧
    (∀ k bo oo, lookupObj base k = some (.obj bo) →
      lookupObj overlay k = some (.obj oo) →
      lookupObj (deepMergeObjects base overlay) k =
        some (.obj (deepMergeObjects bo oo))) ∧
    (∀ k bv ov, lookupObj base k = some bv → lookupObj overlay k = some ov →
      ¬(isObjV bv = true ∧ isObjV ov = true) →
      lookupObj (deepMergeObjects base overlay) k = some ov) ∧
    (∀ k ov, lookupObj base k = none → lookupObj overlay k = some ov →
      lookupObj (deepMergeObjects base overlay) k = some ov) := by
  refine ⟨fun k h => keys_deepMerge_superset overlay base k h, ?_, ?_, ?_⟩
  · intro k bo oo hb ho
    rw [lookup_deepMerge overlay hO base k, ho]
    simp only [overlayValue, hb]
  · intro k bv ov hb ho hno
    rw [lookup_deepMerge overlay hO base k, ho]
    cases bv <;> cases ov <;> simp_all [isObjV, overlayValue]
  · intro k ov hb ho
    rw [lookup_deepMerge overlay hO base k, ho]
    cases ov <;> simp [overlayValue, hb]

/-- Witness for C4 at concrete objects: the overlay scalar replaces the base
scalar at the shared key. -/
theorem c4_witness :
    ((keysOf [(("a").data, Value.int 2), (("b").data, Value.null)]).Nodup) ∧
    lookupObj
        (deepMergeObjects [(("a").data, Value.int 1)]
          [(("a").data, Value.int 2), (("b").data, Value.null)])
        ("a").data =
      some (Value.int 2) :=
  ⟨by decide,
   (c4_theorem [(("a").data, Value.int 1)]
      [(("a").data, Value.int 2), (("b").data, Value.null)]
      (by decide)).2.2.1 ("a").data (Value.int 1) (Value.int 2) rfl rfl
     (by decide)⟩

theorem noConflictB_nil (parts : List Str) : noConflictB [] parts = true := by
  cases parts with
  | nil => rfl
  | cons p rest =>
    cases rest with
    | nil => rfl
    | cons q r => simp [noConflictB, lookupObj]

theorem setParts_get_roundtrip (parts : List Str) (o : Obj) (v : Value)
    (fp : Str) (hne : parts ≠ []) (hnc : noConflictB o parts = true) :
    ∃ o', setPartsDoc fp o parts v = .ok o' ∧
      getParts (.obj o') parts = some v := by
  induction parts generalizing o with
  | nil => exact absurd rfl hne
  | cons p rest ih =>
    cases rest with
    | nil =>
      exact ⟨insertObj o p v, rfl, by simp [getParts, lookupObj_insert_self]⟩
    | cons q r =>
      have hchild : ∃ child, (lookupObj o p).getD (.obj []) = .obj child ∧
          noConflictB child (q :: r) = true := by
        rcases hl : lookupObj o p with _ | w
        · exact ⟨[], by simp [hl], noConflictB_nil _⟩
        · cases w with
          | obj child =>
            refine ⟨child, by simp [hl], ?_⟩
            simpa [noConflictB, hl] using hnc
          | str s => simp [noConflictB, hl] at hnc
          | int n => simp [noConflictB, hl] at hnc
          | float f => simp [noConflictB, hl] at hnc
          | bool b => simp [noConflictB, hl] at hnc
          | null => simp [noConflictB, hl] at hnc
          | arr a => simp [noConflictB, hl] at hnc
      obtain ⟨child, hc, hncc⟩ := hchild
      obtain ⟨child', hset, hget⟩ := ih child (by simp) hncc
      refine ⟨insertObj o p (.obj child'), ?_, ?_⟩
      · simp [setPartsDoc, hc, hset]
      · simpa [getParts, lookupObj_insert_self] using hget

/-- Claim C5 (amended): for every path whose parsed segment list is
non-empty and whose intermediate segments hold no non-object value, set then
get returns the value set. -/
theorem c5_theorem (d : Document) (P : Str) (V : Value)
    (h1 : parsePath P ≠ []) (h2 : noConflictB d.root (parsePath P) = true) :
    ∃ d', docSet d P V = .ok d' ∧ docGet d' P = some V := by
  have hP : P ≠ [] := by
    intro h
    exact h1 (by simp [h, parsePath, parsePathGo])
  obtain ⟨o', hset, hget⟩ :=
    setParts_get_roundtrip (parsePath P) d.root V P h1 h2
  refine ⟨⟨o', d.relativeSections⟩, ?_, ?_⟩
  · simp [docSet, hP, hset]
  · simpa [docGet, hP] using hget

/-- Witness for C5 at a concrete path and value. -/
theorem c5_witness :
    (parsePath ("a.b").data ≠ [] ∧
     noConflictB emptyDoc.root (parsePath ("a.b").data) = true) ∧
    ∃ d', docSet emptyDoc ("a.b").data (Value.int 7) = .ok d' ∧
      docGet d' ("a.b").data = some (Value.int 7) :=
  ⟨⟨by decide, by decide⟩,
   c5_theorem emptyDoc ("a.b").data (Value.int 7) (by decide) (by decide)⟩

/-- Counterexample to C5 as stated: the empty path has no intermediate
segments at all (the proviso holds vacuously), yet set of a non-object at
the empty path is a silent no-op and get returns the root object, not the
value that was set. -/
theorem c5_counterexample :
    noConflictB emptyDoc.root (parsePath []) = true ∧
    docSet emptyDoc [] (Value.int 5) = .ok emptyDoc ∧
    docGet emptyDoc [] = some (Value.obj []) ∧
    (some (Value.obj []) ≠ some (Value.int 5)) := by
  refine ⟨rfl, rfl, rfl, ?_⟩
  intro h
  injection h with h
  exact Value.noConfusion h

/-- Claim C9: add_relative_section panics (modelled as none) when an
intermediate segment holds a non-object, where Document::set returns a
validation error on the same conflict. -/
theorem c9_theorem :
    (addRelativeSection emptyDoc [('a' : Char)] (Value.int 1)).bind
      (fun d => addRelativeSection d ('a' :: '.' :: ['b']) (Value.int 2)) = none ∧
    docSet ⟨[([('a' : Char)], Value.int 1)], []⟩ ('a' :: '.' :: ['b'])
        (Value.int 2) =
      .error (.validationError ('a' :: '.' :: ['b']) (notObjectMsg [('a' : Char)])) := by
  constructor <;> rfl

/-- Claim C10: set with the empty path and a non-object value returns Ok and
leaves the document entirely unchanged. -/
theorem c10_theorem (d : Document) (v : Value) (h : isObjV v = false) :
    docSet d [] v = .ok d := by
  cases v <;> simp_all [docSet, isObjV]

/-- Witness for C10 at a concrete document and value. -/
theorem c10_witness :
    isObjV (Value.int 3) = false ∧
    docSet ⟨[([('a' : Char)], Value.int 1)], [([('r' : Char)], Value.null)]⟩ []
        (Value.int 3) =
      .ok ⟨[([('a' : Char)], Value.int 1)], [([('r' : Char)], Value.null)]⟩ :=
  ⟨rfl, c10_theorem _ (Value.int 3) rfl⟩

theorem take_all_iff_takeWhile (p : Char → Bool) (l : List Char) (n : Nat)
    (h : n ≤ l.length) :
    ((l.take n).all p = true) ↔ n ≤ (l.takeWhile p).length := by
  induction l generalizing n with
  | nil =>
    simp only [List.length_nil, Nat.le_zero] at h
    subst h
    simp
  | cons c t ih =>
    cases n with
    | zero => simp
    | succ m =>
      simp only [List.length_cons, Nat.succ_le_succ_iff] at h
      by_cases hp : p c
      · simp [List.takeWhile_cons, hp, Nat.succ_le_succ_iff, ih m h]
      · simp [List.takeWhile_cons, hp]

theorem trailingQuoteRun_le (s : Str) : trailingQuoteRun s ≤ s.length := by
  have h := (List.takeWhile_prefix (l := s.reverse) (· = '"')).length_le
  simpa [trailingQuoteRun] using h

theorem endsWithQuotes_iff (s : Str) (n : Nat) :
    endsWithQuotes s n = true ↔ n ≤ trailingQuoteRun s := by
  unfold endsWithQuotes
  by_cases hl : s.length < n
  · simp only [hl, if_true]
    constructor
    · intro h
      exact absurd h (by simp)
    · intro h
      have := trailingQuoteRun_le s
      omega
  · simp only [hl, if_false]
    have h' : n ≤ s.reverse.length := by
      simpa using Nat.le_of_not_lt hl
    exact take_all_iff_takeWhile (· = '"') s.reverse n h'

theorem drop_eq_replicate_of_trailing (s : Str) (n : Nat)
    (h : n ≤ trailingQuoteRun s) :
    s.drop (s.length - n) = List.replicate n '"' := by
  have hlen : n ≤ s.length := le_trans h (trailingQuoteRun_le s)
  have hall : (s.reverse.take n).all (· = '"') = true := by
    rw [take_all_iff_takeWhile (· = '"') s.reverse n (by simpa using hlen)]
    exact h
  have hrep : s.reverse.take n = List.replicate n '"' := by
    have hlength : (s.reverse.take n).length = n := by
      simp [hlen]
    rw [List.eq_replicate_iff]
    refine ⟨hlength, ?_⟩
    intro b hb
    have := List.all_eq_true.mp hall b hb
    simpa using this
  have hdrop : (s.reverse.take n).reverse = s.drop (s.length - n) := by
    have h2 := List.reverse_take (l := s.reverse) (n := n)
    simpa using h2
  rw [← hdrop, hrep, List.reverse_replicate]

theorem mem_of_mem_trim {s : Str} {c : Char} (h : c ∈ trim s) : c ∈ s := by
  unfold trim trimEnd trimStart at h
  have h1 := List.mem_reverse.mp h
  have h2 := (List.dropWhile_sublist _).subset h1
  have h3 := List.mem_reverse.mp h2
  exact (List.dropWhile_sublist _).subset h3

theorem rfindIdx_eq_none {s : Str} {c : Char} (h : c ∉ s) :
    rfindIdx s c = none := by
  unfold rfindIdx
  have : s.reverse.findIdx? (· = c) = none := by
    rw [List.findIdx?_eq_none_iff]
    intro x hx
    have : x ≠ c := fun he => h (he ▸ List.mem_reverse.mp hx)
    simpa using this
  rw [this]

theorem parseConstraint_replicate_quotes (n : Nat) :
    parseConstraint (List.replicate n '"') = none := by
  unfold parseConstraint
  by_cases ht : trim (List.replicate n '"') = []
  · simp [ht]
  · have hmem : '(' ∉ trim (List.replicate n '"') := by
      intro hm
      have := mem_of_mem_trim hm
      rw [List.mem_replicate] at this
      exact absurd this.2 (by decide)
    have hrf : rfindIdx (trim (List.replicate n '"')) '(' = none :=
      rfindIdx_eq_none hmem
    simp [ht, hrf]

/-- Claim C1 (amended): a line closes an open multiline block exactly when
its trailing quote run has length at least the opening run length N, so a
trailing run of exactly N or of N+1 closes the block, while a shorter run
(such as N-1) leaves the block open. -/
theorem c1_theorem (n : Nat) (line : Str) (ln : Nat) :
    (n ≤ trailingQuoteRun line →
      (handleMultilineContinuation ⟨true, n⟩ line ln).1.tokType = .multilineEnd ∧
      (handleMultilineContinuation ⟨true, n⟩ line ln).2.inMultiline = false) ∧
    (trailingQuoteRun line < n →
      (handleMultilineContinuation ⟨true, n⟩ line ln).1.tokType = .multilineContent ∧
      (handleMultilineContinuation ⟨true, n⟩ line ln).2.inMultiline = true) := by
  constructor
  · intro h
    have hE : endsWithQuotes line n = true := (endsWithQuotes_iff line n).mpr h
    simp [handleMultilineContinuation, hE]
  · intro h
    have hE : endsWithQuotes line n = false := by
      rw [← Bool.not_eq_true, endsWithQuotes_iff]
      omega
    simp [handleMultilineContinuation, hE]

/-- Counterexample to C1 as stated: a block opened by a run of 2 quotes is
closed by a line whose trailing run has 3 = N+1 quotes. -/
theorem c1_counterexample :
    trailingQuoteRun ("b\"\"\"").data = 3 ∧
    (tokenize ("k = \"\"a\nb\"\"\"\nc").data).map
        (fun t => (t.tokType, t.quoteCount)) =
      [(.multilineStart, some 2), (.multilineEnd, none), (.scalarValue, none)] :=
  ⟨by decide, by rfl⟩

/-- Witness for the amended C1 at a concrete delimiter length and lines. -/
theorem c1_witness :
    (2 ≤ trailingQuoteRun ("ab\"\"").data ∧
     (handleMultilineContinuation ⟨true, 2⟩ ("ab\"\"").data 5).1.tokType =
       .multilineEnd ∧
     (handleMultilineContinuation ⟨true, 2⟩ ("ab\"\"").data 5).2.inMultiline =
       false) ∧
    (trailingQuoteRun ("ab\"").data < 2 ∧
     (handleMultilineContinuation ⟨true, 2⟩ ("ab\"").data 6).1.tokType =
       .multilineContent ∧
     (handleMultilineContinuation ⟨true, 2⟩ ("ab\"").data 6).2.inMultiline =
       true) :=
  ⟨⟨by decide, (c1_theorem 2 ("ab\"\"").data 5).1 (by decide)⟩,
   ⟨by decide, (c1_theorem 2 ("ab\"").data 6).2 (by decide)⟩⟩

/-- Claim C7: a key/value line whose raw value opens with a maximal run of
N > 0 quotes, is longer than 2N, and ends with a maximal run of exactly N
quotes lexes to a single KeyValue token on that line, valued with the text
between the two runs, carrying the (empty) constraint after the closing run,
and leaves the lexer outside multiline mode. -/
theorem c7_theorem (st : LexState) (line : Str) (ln : Nat) (N : Nat)
    (hml : st.inMultiline = false)
    (hnb : trim line ≠ [])
    (hhd : tryParseHeader line ln = none)
    (heq : line.contains '=' = true)
    (hlead : countLeadingQuotes (rawValueOf line) = N)
    (hpos : 0 < N)
    (hlen : 2 * N < (rawValueOf line).length)
    (htrail : trailingQuoteRun (rawValueOf line) = N) :
    tokenizeLine st line ln =
      ({ tokType := .keyValue, lineNumber := ln, rawLine := line,
         key := some (keyOf line),
         value := some (betweenQuoteRuns (rawValueOf line) N),
         constraint := none }, ⟨false, N⟩) := by
  obtain ⟨im, mc⟩ := st
  simp only [LexState.inMultiline] at hml
  subst hml
  have hE : endsWithQuotes (rawValueOf line) N = true :=
    (endsWithQuotes_iff _ N).mpr (le_of_eq htrail.symm)
  have hgt : (rawValueOf line).length > N * 2 := by omega
  have hqv : extractQuotedValue (rawValueOf line) N =
      betweenQuoteRuns (rawValueOf line) N := by
    unfold extractQuotedValue betweenQuoteRuns
    rw [if_neg (by omega)]
  have hcq : extractConstraintAfterQuotes (rawValueOf line) N = none := by
    unfold extractConstraintAfterQuotes
    rw [if_neg (by omega),
      drop_eq_replicate_of_trailing _ N (le_of_eq htrail.symm),
      parseConstraint_replicate_quotes]
  unfold tokenizeLine
  simp only [Bool.false_eq_true, if_false, if_neg hnb, hhd, heq, if_true]
  unfold parseKeyValue
  simp only [hlead, hpos, if_true, hgt, hE, and_self, hqv, hcq]

/-- Witness for C7 at a concrete single-line quoted value. -/
theorem c7_witness :
    ((⟨false, 0⟩ : LexState).inMultiline = false ∧
     trim ("k = \"\"ab\"\"").data ≠ [] ∧
     tryParseHeader ("k = \"\"ab\"\"").data 1 = none ∧
     ("k = \"\"ab\"\"").data.contains '=' = true ∧
     countLeadingQuotes (rawValueOf ("k = \"\"ab\"\"").data) = 2 ∧
     0 < 2 ∧
     2 * 2 < (rawValueOf ("k = \"\"ab\"\"").data).length ∧
     trailingQuoteRun (rawValueOf ("k = \"\"ab\"\"").data) = 2) ∧
    tokenizeLine ⟨false, 0⟩ ("k = \"\"ab\"\"").data 1 =
      ({ tokType := .keyValue, lineNumber := 1,
         rawLine := ("k = \"\"ab\"\"").data,
         key := some (keyOf ("k = \"\"ab\"\"").data),
         value := some (betweenQuoteRuns (rawValueOf ("k = \"\"ab\"\"").data) 2),
         constraint := none }, ⟨false, 2⟩) :=
  ⟨⟨rfl, by decide, by decide, by decide, by decide, by decide, by decide,
    by decide⟩,
   c7_theorem ⟨false, 0⟩ ("k = \"\"ab\"\"").data 1 2 rfl (by decide) (by decide)
     (by decide) (by decide) (by decide) (by decide) (by decide)⟩

theorem processSection_nil (cfg : ParserCfg) (path : Str) (isAbs : Bool)
    (doc : Document) : processSection cfg [] path isAbs doc = .ok doc := by
  simp [processSection]

/-- Claim C8: a failure while processing the pending section aborts the
parse immediately with that error, both when the section is closed by a
header (whatever tokens follow) and when it is closed by end of input; no
document is produced. -/
theorem c8_theorem (cfg : ParserCfg) (doc : Document) (curPath : Str)
    (curAbs : Bool) (pending : List Token) (t : Token) (rest : List Token)
    (e : Fail) (ht : isHeaderTok t = true)
    (hfail : processSection cfg pending curPath curAbs doc = .error e) :
    parseTokensAux cfg doc curPath curAbs pending (t :: rest) = .error e ∧
    parseTokensAux cfg doc curPath curAbs pending [] = .error e := by
  have hpend : pending ≠ [] := by
    intro h
    rw [h, processSection_nil] at hfail
    exact Except.noConfusion hfail
  constructor
  · unfold parseTokensAux
    simp [ht, hpend, hfail]
  · unfold parseTokensAux
    simp [hpend, hfail]

/-- Witness for C8: a section whose nested key collides with a scalar field
fails, and the parse aborts with that error regardless of following tokens. -/
theorem c8_witness :
    (isHeaderTok (absHdrTok ("q").data) = true ∧
     processSection defaultCfg
        [kvTok ("a").data ("1").data, kvTok ("a.b").data ("2").data]
        ("p").data true emptyDoc =
       .error (.parseError 0 (notObjectMsg ("a").data))) ∧
    parseTokensAux defaultCfg emptyDoc ("p").data true
        [kvTok ("a").data ("1").data, kvTok ("a.b").data ("2").data]
        (absHdrTok ("q").data :: [kvTok ("x").data ("y").data]) =
      .error (.parseError 0 (notObjectMsg ("a").data)) :=
  ⟨⟨rfl, by rfl⟩,
   (c8_theorem defaultCfg emptyDoc ("p").data true
      [kvTok ("a").data ("1").data, kvTok ("a.b").data ("2").data]
      (absHdrTok ("q").data) [kvTok ("x").data ("y").data]
      (.parseError 0 (notObjectMsg ("a").data)) rfl (by rfl)).1⟩

theorem parseObjectGo_ml (cfg : ParserCfg) (o : Obj) (k? : Option Str)
    (acc : List Str) (rest : List Token) :
    parseObjectGo cfg o (some (k?, acc)) rest =
      (match k? with
       | some k =>
         match setNestedValue o k (.str (joinNL (collectMLGo rest acc).1)) with
         | .ok o' => parseObjectGo cfg o' none (collectMLGo rest acc).2
         | .error e => .error e
       | none => parseObjectGo cfg o none (collectMLGo rest acc).2) := by
  induction rest generalizing acc with
  | nil =>
    cases k? with
    | none => simp [parseObjectGo, collectMLGo]
    | some k =>
      simp only [parseObjectGo, collectMLGo]
  | cons t rest ih =>
    rcases htt : t.tokType with _ | _ | _ | _ | _ | _ | _ | _ <;>
      simp only [parseObjectGo, collectMLGo, htt]
    · exact ih acc
    · exact ih acc
    · exact ih acc
    · exact ih acc
    · exact ih acc
    · exact ih acc
    · cases hv : t.value with
      | none => exact ih acc
      | some v => exact ih (v :: acc)
    · cases hv : t.value with
      | none => rfl
      | some v =>
        by_cases hve : v = []
        · simp [hve]
        · simp [hve]

theorem parseObjectArrayGo_ml (cfg : ParserCfg) (cur : Obj)
    (objs : List Value) (k? : Option Str) (acc : List Str)
    (rest : List Token) :
    parseObjectArrayGo cfg cur objs (some (k?, acc)) rest =
      (match k? with
       | some k =>
         parseObjectArrayGo cfg
           (insertObj cur k (.str (joinNL (collectMLGo rest acc).1))) objs
           none (collectMLGo rest acc).2
       | none =>
         parseObjectArrayGo cfg cur objs none (collectMLGo rest acc).2) := by
  induction rest generalizing acc with
  | nil =>
    cases k? with
    | none => simp [parseObjectArrayGo, collectMLGo]
    | some k => simp [parseObjectArrayGo, collectMLGo]
  | cons t rest ih =>
    rcases htt : t.tokType with _ | _ | _ | _ | _ | _ | _ | _ <;>
      simp only [parseObjectArrayGo, collectMLGo, htt]
    · exact ih acc
    · exact ih acc
    · exact ih acc
    · exact ih acc
    · exact ih acc
    · exact ih acc
    · cases hv : t.value with
      | none => exact ih acc
      | some v => exact ih (v :: acc)
    · cases hv : t.value with
      | none => rfl
      | some v =>
        by_cases hve : v = []
        · simp [hve]
        · simp [hve]

/-- Claim C6: type inference tries Boolean (case-insensitive), then 64-bit
signed integer, then 64-bit float, else String; and a value assembled from a
multiline block is inserted as a String by both object builders, for every
inference setting. -/
theorem c6_theorem (cfg : ParserCfg) (s : Str) (o cur : Obj)
    (objs : List Value) (t : Token) (rest : List Token) :
    (cfg.inferTypes = true →
      ((lowerStr s = ("true").data → inferType cfg s = .bool true) ∧
       (lowerStr s = ("false").data → inferType cfg s = .bool false) ∧
       (lowerStr s ≠ ("true").data → lowerStr s ≠ ("false").data →
         ∀ n, parseI64 s = some n → inferType cfg s = .int n) ∧
       (lowerStr s ≠ ("true").data → lowerStr s ≠ ("false").data →
         parseI64 s = none → isF64Lit s = true → inferType cfg s = .float s) ∧
       (lowerStr s ≠ ("true").data → lowerStr s ≠ ("false").data →
         parseI64 s = none → isF64Lit s = false → inferType cfg s = .str s))) ∧
    (t.tokType = .multilineStart →
      (parseObjectGo cfg o none (t :: rest) =
        (match t.key with
         | some k =>
           match setNestedValue o k (.str (collectMultiline t rest).1) with
           | .ok o' => parseObjectGo cfg o' none (collectMultiline t rest).2
           | .error e => .error e
         | none => parseObjectGo cfg o none (collectMultiline t rest).2)) ∧
      (parseObjectArrayGo cfg cur objs none (t :: rest) =
        (match t.key with
         | some k =>
           parseObjectArrayGo cfg
             (insertObj cur k (.str (collectMultiline t rest).1)) objs none
             (collectMultiline t rest).2
         | none =>
           parseObjectArrayGo cfg cur objs none
             (collectMultiline t rest).2))) := by
  constructor
  · intro hi
    refine ⟨?_, ?_, ?_, ?_, ?_⟩
    · intro h
      simp [inferType, hi, h]
    · intro h
      by_cases ht : lowerStr s = ("true").data
      · rw [ht] at h
        exact absurd h (by decide)
      · simp [inferType, hi, ht, h]
    · intro ht hf n hn
      simp [inferType, hi, ht, hf, hn]
    · intro ht hf hn hf64
      simp [inferType, hi, ht, hf, hn, hf64]
    · intro ht hf hn hf64
      simp [inferType, hi, ht, hf, hn, hf64]
  · intro hml
    constructor
    · rw [parseObjectGo.eq_def]
      simp only [hml]
      rw [parseObjectGo_ml]
      rfl
    · rw [parseObjectArrayGo.eq_def]
      simp only [hml]
      rw [parseObjectArrayGo_ml]
      rfl

/-- Witness for C6: inference precedence at concrete strings, and a concrete
multiline block inserted as a String under both inference settings. -/
theorem c6_witness :
    inferType defaultCfg ("42").data = .int 42 ∧
    inferType defaultCfg ("TRUE").data = .bool true ∧
    inferType defaultCfg ("1.5").data = .float ("1.5").data ∧
    inferType defaultCfg ("abc").data = .str ("abc").data ∧
    parseObjectGo defaultCfg [] none
        ({ tokType := .multilineStart, lineNumber := 1, rawLine := [],
           key := some (("k").data), value := some (("x").data),
           quoteCount := some 3 } ::
         [{ tokType := .multilineEnd, lineNumber := 2, rawLine := [],
            value := some (("y").data) }]) =
      .ok [((("k").data), Value.str ("x\ny").data)] ∧
    parseObjectGo ⟨false, false⟩ [] none
        ({ tokType := .multilineStart, lineNumber := 1, rawLine := [],
           key := some (("k").data), value := some (("x").data),
           quoteCount := some 3 } ::
         [{ tokType := .multilineEnd, lineNumber := 2, rawLine := [],
            value := some (("y").data) }]) =
      .ok [((("k").data), Value.str ("x\ny").data)] := by
  refine ⟨?_, ?_, ?_, ?_, ?_, ?_⟩
  · exact ((c6_theorem defaultCfg ("42").data [] [] [] blankTok []).1 rfl).2.2.1
      (by decide) (by decide) 42 (by decide)
  · exact ((c6_theorem defaultCfg ("TRUE").data [] [] [] blankTok []).1 rfl).1
      (by decide)
  · exact ((c6_theorem defaultCfg ("1.5").data [] [] [] blankTok []).1 rfl).2.2.2.1
      (by decide) (by decide) (by decide) (by decide)
  · exact ((c6_theorem defaultCfg ("abc").data [] [] [] blankTok []).1 rfl).2.2.2.2
      (by decide) (by decide) (by decide) (by decide)
  · exact (((c6_theorem defaultCfg [] [] [] []
      { tokType := .multilineStart, lineNumber := 1, rawLine := [],
        key := some (("k").data), value := some (("x").data),
        quoteCount := some 3 }
      [{ tokType := .multilineEnd, lineNumber := 2, rawLine := [],
         value := some (("y").data) }]).2 rfl).1).trans (by rfl)
  · exact (((c6_theorem ⟨false, false⟩ [] [] [] []
      { tokType := .multilineStart, lineNumber := 1, rawLine := [],
        key := some (("k").data), value := some (("x").data),
        quoteCount := some 3 }
      [{ tokType := .multilineEnd, lineNumber := 2, rawLine := [],
         value := some (("y").data) }]).2 rfl).1).trans (by rfl)

theorem isContentTok_of_blank {t : Token} (h : isBlankTok t = true) :
    isContentTok t = false := by
  simp only [isBlankTok, decide_eq_true_eq] at h
  simp [isContentTok, h]

theorem isBlankTok_of_content {t : Token} (h : isContentTok t = true) :
    isBlankTok t = false := by
  simp only [isContentTok, Bool.or_eq_true, decide_eq_true_eq] at h
  rcases h with h | h <;> simp [isBlankTok, h]

theorem hbs_phases (ts : List Token) :
    hbsGo false false false ts = sepA ts ∧
    hbsGo false true false ts = sepB ts ∧
    hbsGo true false false ts = sepC ts ∧
    (∀ fc, hbsGo true fc true ts = true) := by
  induction ts with
  | nil => simp [hbsGo, sepA, sepB, sepC]
  | cons t rest ih =>
    by_cases hb : isBlankTok t = true
    · have hc : isContentTok t = false := isContentTok_of_blank hb
      refine ⟨?_, ?_, ?_, ?_⟩
      · simp [hbsGo, sepA, hb, hc, ih.1]
      · simp [hbsGo, sepB, hb, ih.2.2.1]
      · simp [hbsGo, sepC, hb, hc, ih.2.2.1]
      · intro fc
        cases fc <;> simp [hbsGo, hb, ih.2.2.2]
    · have hb' : isBlankTok t = false := by
        cases h : isBlankTok t
        · rfl
        · exact absurd h hb
      by_cases hc : isContentTok t = true
      · refine ⟨?_, ?_, ?_, ?_⟩
        · simp [hbsGo, sepA, hb', hc, ih.2.1]
        · simp [hbsGo, sepB, hb', hc, ih.2.1]
        · simp [hbsGo, sepC, hb', hc, ih.2.2.2]
        · intro fc
          simp [hbsGo, hb', hc, ih.2.2.2]
      · have hc' : isContentTok t = false := by
          cases h : isContentTok t
          · rfl
          · exact absurd h hc
        refine ⟨?_, ?_, ?_, ?_⟩
        · simp [hbsGo, sepA, hb', hc', ih.1]
        · simp [hbsGo, sepB, hb', hc', ih.2.1]
        · simp [hbsGo, sepC, hb', hc', ih.2.2.1]
        · intro fc
          simp [hbsGo, hb', hc', ih.2.2.2]

theorem sepC_iff (ts : List Token) :
    sepC ts = true ↔ ∃ c ∈ ts, isContentTok c = true := by
  simp [sepC, List.any_eq_true]

theorem sepB_iff (ts : List Token) :
    sepB ts = true ↔
      ∃ l1 b l2, ts = l1 ++ b :: l2 ∧ isBlankTok b = true ∧
        ∃ c ∈ l2, isContentTok c = true := by
  constructor
  · intro h
    induction ts with
    | nil => simp [sepB] at h
    | cons t rest ih =>
      by_cases hb : isBlankTok t = true
      · rw [sepB, if_pos hb] at h
        exact ⟨[], t, rest, rfl, hb, (sepC_iff rest).mp h⟩
      · rw [sepB, if_neg hb] at h
        obtain ⟨l1, b, l2, hsp, hbb, hcc⟩ := ih h
        exact ⟨t :: l1, b, l2, by rw [hsp]; rfl, hbb, hcc⟩
  · intro ⟨l1, b, l2, hsp, hbb, hcc⟩
    subst hsp
    induction l1 with
    | nil =>
      rw [List.nil_append, sepB, if_pos hbb]
      exact (sepC_iff l2).mpr hcc
    | cons t l1 ih =>
      by_cases hb : isBlankTok t = true
      · rw [List.cons_append, sepB, if_pos hb]
        refine (sepC_iff _).mpr ?_
        obtain ⟨c, hc1, hc2⟩ := hcc
        exact ⟨c, by simp [hc1], hc2⟩
      · rw [List.cons_append, sepB, if_neg hb]
        exact ih

theorem sepA_cons (t : Token) (rest : List Token) :
    sepA (t :: rest) =
      if isContentTok t = true then sepB rest else sepA rest := rfl

theorem sepA_iff (ts : List Token) :
    sepA ts = true ↔ IsObjectArraySplit ts := by
  constructor
  · intro h
    induction ts with
    | nil => simp [sepA] at h
    | cons t rest ih =>
      by_cases hc : isContentTok t = true
      · rw [sepA, if_pos hc] at h
        obtain ⟨l1, b, l2, hsp, hbb, c, hc1, hc2⟩ := (sepB_iff rest).mp h
        obtain ⟨l3, l4, hl2⟩ := List.append_of_mem hc1
        refine ⟨[], t, l1, b, l3, c, l4, ?_, hc, hbb, hc2⟩
        rw [hsp, hl2]
        simp
      · rw [sepA, if_neg hc] at h
        obtain ⟨l1, c1, l2, b, l3, c2, l4, hsp, h1, h2, h3⟩ := ih h
        exact ⟨t :: l1, c1, l2, b, l3, c2, l4, by rw [hsp]; rfl, h1, h2, h3⟩
  · intro ⟨l1, c1, l2, b, l3, c2, l4, hsp, h1, h2, h3⟩
    subst hsp
    induction l1 with
    | nil =>
      simp only [List.nil_append, List.cons_append, List.append_assoc]
      rw [sepA_cons, if_pos h1]
      exact (sepB_iff _).mpr
        ⟨l2, b, l3 ++ c2 :: l4, by simp, h2, c2, by simp, h3⟩
    | cons t l1 ih =>
      simp only [List.cons_append, List.append_assoc] at ih ⊢
      by_cases hc : isContentTok t = true
      · rw [sepA_cons, if_pos hc]
        exact (sepB_iff _).mpr
          ⟨l1 ++ c1 :: l2, b, l3 ++ c2 :: l4, by simp, h2, c2, by simp, h3⟩
      · rw [sepA_cons, if_neg hc]
        exact ih

theorem hasBlankLineSeparators_iff (ts : List Token) :
    hasBlankLineSeparators ts = true ↔ IsObjectArraySplit ts := by
  rw [hasBlankLineSeparators, (hbs_phases ts).1]
  exact sepA_iff ts

/-- Claim C2 (amended): for a section containing at least one non-blank
token, classification is purely positional: no key/value content gives the
scalar-array build; key/value content with a blank line strictly between two
content tokens gives the object-array build; key/value content without such
a blank gives the plain-object build. -/
theorem c2_theorem (cfg : ParserCfg) (ts : List Token) (path : Str)
    (isAbs : Bool) (doc : Document)
    (hne : ∃ t ∈ ts, isBlankTok t = false) :
    ((∀ t ∈ ts, isContentTok t = false) →
      processSection cfg ts path isAbs doc =
        buildScalarArray cfg ts path isAbs doc) ∧
    ((∃ t ∈ ts, isContentTok t = true) → IsObjectArraySplit ts →
      processSection cfg ts path isAbs doc =
        buildObjectArray cfg ts path isAbs doc) ∧
    ((∃ t ∈ ts, isContentTok t = true) → ¬ IsObjectArraySplit ts →
      processSection cfg ts path isAbs doc =
        buildPlainObject cfg ts path isAbs doc) := by
  obtain ⟨t0, ht0, hb0⟩ := hne
  have hts : ts ≠ [] := List.ne_nil_of_mem ht0
  have hcontent : ts.filter (fun t => ¬ isBlankTok t) ≠ [] := by
    have : t0 ∈ ts.filter (fun t => ¬ isBlankTok t) := by
      rw [List.mem_filter]
      exact ⟨ht0, by simp [hb0]⟩
    exact List.ne_nil_of_mem this
  refine ⟨?_, ?_, ?_⟩
  · intro hall
    have hany : (ts.filter (fun t => ¬ isBlankTok t)).any isContentTok = false := by
      rw [List.any_eq_false]
      intro t ht
      simp [hall t (List.mem_filter.mp ht).1]
    rw [processSection, if_neg hts, buildScalarArray]
    simp only [hcontent, if_neg, hany]
    simp [hcontent]
  · intro ⟨t1, ht1, hc1⟩ hsplit
    have hany : (ts.filter (fun t => ¬ isBlankTok t)).any isContentTok = true := by
      rw [List.any_eq_true]
      refine ⟨t1, ?_, hc1⟩
      rw [List.mem_filter]
      exact ⟨ht1, by simp [isBlankTok_of_content hc1]⟩
    rw [processSection, if_neg hts]
    simp only [hcontent, if_neg, hany,
      (hasBlankLineSeparators_iff ts).mpr hsplit]
    simp [hcontent]
  · intro ⟨t1, ht1, hc1⟩ hsplit
    have hany : (ts.filter (fun t => ¬ isBlankTok t)).any isContentTok = true := by
      rw [List.any_eq_true]
      refine ⟨t1, ?_, hc1⟩
      rw [List.mem_filter]
      exact ⟨ht1, by simp [isBlankTok_of_content hc1]⟩
    have hbs : hasBlankLineSeparators ts = false := by
      cases h : hasBlankLineSeparators ts
      · rfl
      · exact absurd ((hasBlankLineSeparators_iff ts).mp h) hsplit
    rw [processSection, if_neg hts]
    simp only [hcontent, if_neg, hany, hbs]
    simp [hcontent]

/-- Counterexample to C2 as stated: a section consisting of one BlankLine
token contains no KeyValue or MultilineStart token, yet it is not built as a
scalar array: process_section leaves the document untouched, while the
scalar-array build would store an empty array at the section path. -/
theorem c2_counterexample :
    processSection defaultCfg [blankTok] ("a").data true emptyDoc =
      .ok emptyDoc ∧
    buildScalarArray defaultCfg [blankTok] ("a").data true emptyDoc =
      .ok ⟨[(("a").data, Value.arr [])], []⟩ ∧
    docGet emptyDoc ("a").data = none ∧
    docGet ⟨[(("a").data, Value.arr [])], []⟩ ("a").data =
      some (Value.arr []) ∧
    (none ≠ some (Value.arr [])) := by
  refine ⟨by rfl, by rfl, by rfl, by rfl, ?_⟩
  intro h
  exact Option.noConfusion h

/-- Witness for the amended C2 at a concrete one-line section. -/
theorem c2_witness :
    (∃ t ∈ [kvTok ("a").data ("1").data], isBlankTok t = false) ∧
    ((∃ t ∈ [kvTok ("a").data ("1").data], isContentTok t = true) ∧
     ¬ IsObjectArraySplit [kvTok ("a").data ("1").data]) ∧
    processSection defaultCfg [kvTok ("a").data ("1").data] ("p").data true
        emptyDoc =
      buildPlainObject defaultCfg [kvTok ("a").data ("1").data] ("p").data
        true emptyDoc :=
  have hns : ¬ IsObjectArraySplit [kvTok ("a").data ("1").data] := fun h =>
    absurd ((hasBlankLineSeparators_iff _).mpr h) (by decide)
  ⟨by decide, ⟨by decide, hns⟩,
   (c2_theorem defaultCfg [kvTok ("a").data ("1").data] ("p").data true
      emptyDoc (by decide)).2.2 (by decide) hns⟩

theorem parsePathGo_cons (inQ : Bool) (cur : Str) (acc : List Str)
    (c : Char) (rest : Str) :
    parsePathGo inQ cur acc (c :: rest) =
      (if c = '"' then parsePathGo (!inQ) (cur ++ [c]) acc rest
       else if c = '.' ∧ ¬ inQ then
         (if cur = [] then parsePathGo inQ [] acc rest
          else parsePathGo inQ [] (acc ++ [unquoteKey cur]) rest)
       else parsePathGo inQ (cur ++ [c]) acc rest) := rfl

theorem parsePathGo_nil (inQ : Bool) (cur : Str) (acc : List Str) :
    parsePathGo inQ cur acc [] =
      (if cur = [] then acc else acc ++ [unquoteKey cur]) := rfl

theorem parsePathGo_no_special (s : Str)
    (h : ∀ c ∈ s, c ≠ '"' ∧ c ≠ '.') :
    ∀ (cur : Str) (acc : List Str) (r : Str),
      parsePathGo false cur acc (s ++ r) = parsePathGo false (cur ++ s) acc r := by
  induction s with
  | nil => intro cur acc r; simp
  | cons c t ih =>
    intro cur acc r
    have hc := h c (List.mem_cons_self c t)
    rw [List.cons_append, parsePathGo_cons, if_neg hc.1,
      if_neg (fun hh => hc.2 hh.1)]
    have ih' := ih (fun x hx => h x (List.mem_cons_of_mem c hx)) (cur ++ [c]) acc r
    rw [ih']
    simp

theorem simpleSeg_spec (s : Str) (h : simpleSeg s = true) :
    s ≠ [] ∧ '.' ∉ s ∧ '"' ∉ s := by
  simp only [simpleSeg, Bool.and_eq_true, decide_eq_true_eq] at h
  refine ⟨?_, ?_, ?_⟩
  · intro he
    rw [he] at h
    exact absurd (by rfl) h.1.1
  · intro hm
    exact h.1.2 ((List.elem_iff).mpr hm)
  · intro hm
    exact h.2 ((List.elem_iff).mpr hm)

theorem unquoteKey_no_quote (s : Str) (h : '"' ∉ s) : unquoteKey s = s := by
  unfold unquoteKey
  cases s with
  | nil => simp
  | cons c t =>
    have hc : c ≠ '"' := fun hh => h (hh ▸ List.mem_cons_self c t)
    rw [if_neg]
    intro hcond
    exact hc (by simpa using hcond.1)

theorem simpleSeg_no_special (s : Str) (h : simpleSeg s = true) :
    ∀ c ∈ s, c ≠ '"' ∧ c ≠ '.' := by
  obtain ⟨_, hdot, hquo⟩ := simpleSeg_spec s h
  intro c hc
  exact ⟨fun e => hquo (e ▸ hc), fun e => hdot (e ▸ hc)⟩

theorem parsePath_single (p : Str) (hp : simpleSeg p = true) :
    parsePath p = [p] := by
  obtain ⟨hne, _, hquo⟩ := simpleSeg_spec p hp
  have h1 : parsePathGo false [] [] (p ++ []) = parsePathGo false ([] ++ p) [] [] :=
    parsePathGo_no_special p (simpleSeg_no_special p hp) [] [] []
  rw [List.append_nil, List.nil_append] at h1
  rw [parsePath, h1, parsePathGo_nil, if_neg hne, unquoteKey_no_quote p hquo,
    List.nil_append]

theorem parsePath_pair (p k : Str) (hp : simpleSeg p = true)
    (hk : simpleSeg k = true) : parsePath (p ++ '.' :: k) = [p, k] := by
  obtain ⟨hpne, _, hpquo⟩ := simpleSeg_spec p hp
  obtain ⟨hkne, _, hkquo⟩ := simpleSeg_spec k hk
  have h1 : parsePathGo false [] [] (p ++ '.' :: k) =
      parsePathGo false ([] ++ p) [] ('.' :: k) :=
    parsePathGo_no_special p (simpleSeg_no_special p hp) [] [] ('.' :: k)
  rw [List.nil_append] at h1
  have h2 : parsePathGo false [] [unquoteKey p] (k ++ []) =
      parsePathGo false ([] ++ k) [unquoteKey p] [] :=
    parsePathGo_no_special k (simpleSeg_no_special k hk) [] [unquoteKey p] []
  rw [List.append_nil, List.nil_append] at h2
  rw [parsePath, h1, parsePathGo_cons, if_neg (by decide),
    if_pos (by exact ⟨rfl, by simp⟩), if_neg hpne, List.nil_append, h2,
    parsePathGo_nil, if_neg hkne, unquoteKey_no_quote p hpquo,
    unquoteKey_no_quote k hkquo]
  rfl

theorem contains_eq_false_of_not_mem {l : Str} {c : Char} (h : c ∉ l) :
    l.contains c = false := by
  cases hc : l.contains c
  · rfl
  · exact absurd (List.elem_iff.mp hc) h

theorem setNestedValue_simple (o : Obj) (k : Str) (v : Value)
    (h : '.' ∉ k) : setNestedValue o k v = .ok (insertObj o k v) := by
  unfold setNestedValue
  rw [if_neg]
  intro hc
  rw [contains_eq_false_of_not_mem h] at hc
  exact Bool.noConfusion hc

theorem parseObjectGo_kv (cfg : ParserCfg) (S : List (Str × Str)) :
    ∀ (o : Obj), (∀ kv ∈ S, '.' ∉ kv.1) →
      parseObjectGo cfg o none (kvToks S) =
        .ok (insertAllObj o (inferPairs cfg S)) := by
  induction S with
  | nil => intro o _; simp [kvToks, parseObjectGo, inferPairs, insertAllObj]
  | cons q rest ih =>
    intro o h
    obtain ⟨k, v⟩ := q
    have hk := h (k, v) (List.mem_cons_self _ _)
    simp only [kvToks, List.map_cons]
    rw [parseObjectGo]
    simp only [kvTok]
    rw [setNestedValue_simple o k _ hk]
    simp only [inferPairs, List.map_cons, insertAllObj]
    exact ih (insertObj o k (inferType cfg v))
      (fun kv hkv => h kv (List.mem_cons_of_mem _ hkv))

theorem hbsGo_no_blank (ts : List Token)
    (h : ∀ t ∈ ts, isBlankTok t = false) :
    ∀ fc ha, hbsGo false fc ha ts = false := by
  induction ts with
  | nil => intro fc ha; simp [hbsGo]
  | cons t rest ih =>
    intro fc ha
    have hb := h t (List.mem_cons_self t rest)
    have ih' := ih (fun x hx => h x (List.mem_cons_of_mem t hx))
    by_cases hc : isContentTok t = true
    · rw [hbsGo]
      simp only [hb, Bool.false_eq_true, if_false, hc, if_true,
        Bool.or_false]
      exact ih' true ha
    · rw [hbsGo]
      simp only [hb, Bool.false_eq_true, if_false]
      rw [if_neg hc]
      exact ih' fc ha

theorem kvToks_no_blank (S : List (Str × Str)) :
    ∀ t ∈ kvToks S, isBlankTok t = false := by
  intro t ht
  obtain ⟨kv, _, hkv⟩ := List.mem_map.mp ht
  rw [← hkv]
  rfl

theorem kvToks_no_header (S : List (Str × Str)) :
    ∀ t ∈ kvToks S, isHeaderTok t = false := by
  intro t ht
  obtain ⟨kv, _, hkv⟩ := List.mem_map.mp ht
  rw [← hkv]
  rfl

theorem ne_nil_append_cons {p : Str} (c : Char) (k : Str)
    (hp : p ≠ []) : p ++ c :: k ≠ [] := by
  cases p with
  | nil => exact absurd rfl hp
  | cons x t => simp

theorem mergeAtPath_nonobj (d : Document) (path : Str) (v : Value)
    (hv : isObjV v = false) : mergeAtPath d path v = docSet d path v := by
  unfold mergeAtPath
  rcases hg : docGet d path with _ | w
  · rfl
  · cases w with
    | obj eo =>
      cases v with
      | obj oo => exact absurd hv (by simp [isObjV])
      | str a => rfl
      | int a => rfl
      | float a => rfl
      | bool a => rfl
      | null => rfl
      | arr a => rfl
    | str a => rfl
    | int a => rfl
    | float a => rfl
    | bool a => rfl
    | null => rfl
    | arr a => rfl

theorem setPartsDoc_pair (fp : Str) (m : Obj) (p k : Str) (v : Value) :
    setPartsDoc fp [(p, .obj m)] [p, k] v =
      .ok [(p, .obj (insertObj m k v))] := by
  simp [setPartsDoc, lookupObj, insertObj]

theorem setPartsDoc_pair_empty (fp : Str) (p k : Str) (v : Value) :
    setPartsDoc fp [] [p, k] v = .ok [(p, .obj (insertObj [] k v))] := by
  simp [setPartsDoc, lookupObj, insertObj]

theorem docSet_pair (p k : Str) (v : Value) (m rel : Obj)
    (hp : simpleSeg p = true) (hk : simpleSeg k = true) :
    docSet ⟨[(p, .obj m)], rel⟩ (p ++ '.' :: k) v =
      .ok ⟨[(p, .obj (insertObj m k v))], rel⟩ := by
  have hne : p ++ '.' :: k ≠ [] :=
    ne_nil_append_cons '.' k (simpleSeg_spec p hp).1
  unfold docSet
  rw [if_neg hne, parsePath_pair p k hp hk, setPartsDoc_pair]

theorem docSet_pair_empty (p k : Str) (v : Value) (rel : Obj)
    (hp : simpleSeg p = true) (hk : simpleSeg k = true) :
    docSet ⟨[], rel⟩ (p ++ '.' :: k) v =
      .ok ⟨[(p, .obj (insertObj [] k v))], rel⟩ := by
  have hne : p ++ '.' :: k ≠ [] :=
    ne_nil_append_cons '.' k (simpleSeg_spec p hp).1
  unfold docSet
  rw [if_neg hne, parsePath_pair p k hp hk, setPartsDoc_pair_empty]

theorem getParts_nilp (v : Value) : getParts v [] = some v := by
  cases v <;> rfl

theorem getParts_obj_cons (m : Obj) (p : Str) (rest : List Str) :
    getParts (.obj m) (p :: rest) =
      (match lookupObj m p with
       | some v => getParts v rest
       | none => none) := rfl

theorem docGet_pair (p k : Str) (M rel : Obj)
    (hp : simpleSeg p = true) (hk : simpleSeg k = true) :
    docGet ⟨[(p, .obj M)], rel⟩ (p ++ '.' :: k) = lookupObj M k := by
  have hne : p ++ '.' :: k ≠ [] :=
    ne_nil_append_cons '.' k (simpleSeg_spec p hp).1
  have h1 : lookupObj [(p, Value.obj M)] p = some (Value.obj M) := by
    simp [lookupObj]
  unfold docGet
  rw [if_neg hne, parsePath_pair p k hp hk, getParts_obj_cons, h1]
  show getParts (Value.obj M) [k] = lookupObj M k
  rw [getParts_obj_cons]
  rcases lookupObj M k with _ | w
  · rfl
  · exact getParts_nilp w

theorem docGet_pair_empty (p k : Str) (rel : Obj)
    (hp : simpleSeg p = true) (hk : simpleSeg k = true) :
    docGet ⟨[], rel⟩ (p ++ '.' :: k) = none := by
  have hne : p ++ '.' :: k ≠ [] :=
    ne_nil_append_cons '.' k (simpleSeg_spec p hp).1
  unfold docGet
  rw [if_neg hne, parsePath_pair p k hp hk]
  simp [getParts, lookupObj]

theorem fieldPath_eq (p k : Str) (hp : p ≠ []) :
    fieldPath p k = p ++ '.' :: k := by
  unfold fieldPath
  rw [if_neg hp]

theorem mergeFields_at (p : Str) (hp : simpleSeg p = true) :
    ∀ (pairs : Obj),
      (∀ kv ∈ pairs, simpleSeg kv.1 = true ∧ isObjV kv.2 = false) →
      ∀ m rel, mergeFields p ⟨[(p, .obj m)], rel⟩ pairs =
        .ok ⟨[(p, .obj (insertAllObj m pairs))], rel⟩ := by
  intro pairs
  induction pairs with
  | nil => intro _ m rel; simp [mergeFields, insertAllObj]
  | cons q rest ih =>
    intro h m rel
    obtain ⟨k, v⟩ := q
    obtain ⟨hk, hv⟩ := h (k, v) (List.mem_cons_self _ _)
    rw [mergeFields, fieldPath_eq p k (simpleSeg_spec p hp).1,
      mergeAtPath_nonobj _ _ _ hv, docSet_pair p k v m rel hp hk]
    exact ih (fun kv hkv => h kv (List.mem_cons_of_mem _ hkv))
      (insertObj m k v) rel

theorem mergeFields_empty_root (p : Str) (hp : simpleSeg p = true)
    (pairs : Obj)
    (h : ∀ kv ∈ pairs, simpleSeg kv.1 = true ∧ isObjV kv.2 = false)
    (hne : pairs ≠ []) (rel : Obj) :
    mergeFields p ⟨[], rel⟩ pairs =
      .ok ⟨[(p, .obj (insertAllObj [] pairs))], rel⟩ := by
  cases pairs with
  | nil => exact absurd rfl hne
  | cons q rest =>
    obtain ⟨k, v⟩ := q
    obtain ⟨hk, hv⟩ := h (k, v) (List.mem_cons_self _ _)
    rw [mergeFields, fieldPath_eq p k (simpleSeg_spec p hp).1,
      mergeAtPath_nonobj _ _ _ hv, docSet_pair_empty p k v rel hp hk]
    exact mergeFields_at p hp rest
      (fun kv hkv => h kv (List.mem_cons_of_mem _ hkv))
      (insertObj [] k v) rel

theorem mem_insertObj (o : Obj) (k : Str) (v : Value) :
    ∀ q ∈ insertObj o k v, q ∈ o ∨ q = (k, v) := by
  induction o with
  | nil => intro q hq; simpa [insertObj] using hq
  | cons hd t ih =>
    obtain ⟨k0, v0⟩ := hd
    intro q hq
    by_cases hk : k0 = k
    · rw [insertObj, if_pos hk] at hq
      rcases List.mem_cons.mp hq with h | h
      · exact Or.inr h
      · exact Or.inl (List.mem_cons_of_mem _ h)
    · rw [insertObj, if_neg hk] at hq
      rcases List.mem_cons.mp hq with h | h
      · exact Or.inl (h ▸ List.mem_cons_self _ _)
      · rcases ih q h with h' | h'
        · exact Or.inl (List.mem_cons_of_mem _ h')
        · exact Or.inr h'

theorem mem_insertAllObj (S : Obj) :
    ∀ (m : Obj) (q : Str × Value), q ∈ insertAllObj m S → q ∈ m ∨ q ∈ S := by
  induction S with
  | nil => intro m q hq; exact Or.inl hq
  | cons hd rest ih =>
    obtain ⟨k, v⟩ := hd
    intro m q hq
    rcases ih (insertObj m k v) q hq with h | h
    · rcases mem_insertObj m k v q h with h' | h'
      · exact Or.inl h'
      · exact Or.inr (h' ▸ List.mem_cons_self _ _)
    · exact Or.inr (List.mem_cons_of_mem _ h)

theorem keysOf_nodup_insert (m : Obj) (k : Str) (v : Value)
    (h : (keysOf m).Nodup) : (keysOf (insertObj m k v)).Nodup := by
  induction m with
  | nil => simp [insertObj, keysOf]
  | cons hd t ih =>
    obtain ⟨k0, v0⟩ := hd
    simp only [keysOf, List.map_cons, List.nodup_cons] at h
    by_cases hk : k0 = k
    · subst hk
      rw [insertObj, if_pos rfl]
      simp only [keysOf, List.map_cons, List.nodup_cons]
      exact ⟨h.1, h.2⟩
    · rw [insertObj, if_neg hk]
      simp only [keysOf, List.map_cons, List.nodup_cons]
      refine ⟨?_, ih h.2⟩
      intro hmem
      have hmem' : k0 ∈ keysOf (insertObj t k v) := hmem
      rcases keysOf_insert_cases t k v with hc | hc
      · rw [hc] at hmem'
        exact h.1 hmem'
      · rw [hc] at hmem'
        rcases List.mem_append.mp hmem' with h' | h'
        · exact h.1 h'
        · exact hk (by simpa using h')

theorem keysOf_insertAllObj_nodup (S : Obj) :
    ∀ m : Obj, (keysOf m).Nodup → (keysOf (insertAllObj m S)).Nodup := by
  induction S with
  | nil => intro m h; exact h
  | cons hd rest ih =>
    obtain ⟨k, v⟩ := hd
    intro m h
    exact ih (insertObj m k v) (keysOf_nodup_insert m k v h)

theorem lookup_insertAllObj (S : Obj) :
    ∀ (m : Obj) (k : Str), (keysOf S).Nodup →
      lookupObj (insertAllObj m S) k =
        (match lookupObj S k with
         | some v => some v
         | none => lookupObj m k) := by
  induction S with
  | nil => intro m k _; simp [insertAllObj, lookupObj]
  | cons hd rest ih =>
    obtain ⟨k0, v0⟩ := hd
    intro m k hnd
    simp only [keysOf, List.map_cons, List.nodup_cons] at hnd
    rw [insertAllObj, ih (insertObj m k0 v0) k hnd.2]
    by_cases hk : k0 = k
    · subst hk
      have hr : lookupObj rest k0 = none :=
        lookupObj_eq_none_of_not_mem rest k0 hnd.1
      simp [lookupObj, hr, lookupObj_insert_self]
    · have h1 : lookupObj ((k0, v0) :: rest) k = lookupObj rest k := by
        simp [lookupObj, hk]
      rw [h1]
      rcases lookupObj rest k with _ | w
      · exact lookupObj_insert_ne m k0 v0 k (fun hh => hk hh.symm)
      · rfl

theorem lookup_inferPairs (cfg : ParserCfg) (S : List (Str × Str)) (k : Str) :
    lookupObj (inferPairs cfg S) k = (lookupPairs S k).map (inferType cfg) := by
  induction S with
  | nil => simp [inferPairs, lookupObj, lookupPairs]
  | cons hd rest ih =>
    obtain ⟨k0, v0⟩ := hd
    by_cases hk : k0 = k
    · simp [inferPairs, lookupObj, lookupPairs, hk]
    · simp only [inferPairs, List.map_cons, lookupObj, lookupPairs,
        if_neg hk]
      exact ih

theorem keysOf_inferPairs (cfg : ParserCfg) (S : List (Str × Str)) :
    keysOf (inferPairs cfg S) = S.map Prod.fst := by
  simp [keysOf, inferPairs, Function.comp]

theorem inferType_not_obj (cfg : ParserCfg) (s : Str) :
    isObjV (inferType cfg s) = false := by
  unfold inferType
  split
  · rfl
  · split
    · rfl
    · split
      · rfl
      · split
        · rfl
        · split <;> rfl

theorem lookup_objOfPairs (cfg : ParserCfg) (S : List (Str × Str)) (k : Str)
    (hnd : (S.map Prod.fst).Nodup) :
    lookupObj (objOfPairs cfg S) k = (lookupPairs S k).map (inferType cfg) := by
  unfold objOfPairs
  rw [lookup_insertAllObj (inferPairs cfg S) [] k
    (by rw [keysOf_inferPairs]; exact hnd), lookup_inferPairs]
  rcases lookupPairs S k with _ | v
  · simp [lookupObj]
  · rfl

theorem keysOf_objOfPairs_nodup (cfg : ParserCfg) (S : List (Str × Str)) :
    (keysOf (objOfPairs cfg S)).Nodup :=
  keysOf_insertAllObj_nodup (inferPairs cfg S) [] (by simp [keysOf])

theorem objOfPairs_fields (cfg : ParserCfg) (S : List (Str × Str))
    (hk : ∀ kv ∈ S, simpleSeg kv.1 = true) :
    ∀ q ∈ objOfPairs cfg S, simpleSeg q.1 = true ∧ isObjV q.2 = false := by
  intro q hq
  rcases mem_insertAllObj (inferPairs cfg S) [] q hq with h | h
  · exact absurd h (List.not_mem_nil q)
  · obtain ⟨kv, hkv, he⟩ := List.mem_map.mp h
    rw [← he]
    exact ⟨hk kv hkv, inferType_not_obj cfg kv.2⟩

theorem insertObj_ne_nil (o : Obj) (k : Str) (v : Value) :
    insertObj o k v ≠ [] := by
  cases o with
  | nil => simp [insertObj]
  | cons hd t =>
    obtain ⟨k0, v0⟩ := hd
    by_cases hk : k0 = k
    · simp [insertObj, hk]
    · simp [insertObj, hk]

theorem insertAllObj_ne_nil (S : Obj) :
    ∀ m : Obj, m ≠ [] → insertAllObj m S ≠ [] := by
  induction S with
  | nil => intro m h; exact h
  | cons hd rest ih =>
    obtain ⟨k, v⟩ := hd
    intro m _
    exact ih (insertObj m k v) (insertObj_ne_nil m k v)

theorem objOfPairs_ne_nil (cfg : ParserCfg) (S : List (Str × Str))
    (h : S ≠ []) : objOfPairs cfg S ≠ [] := by
  cases S with
  | nil => exact absurd rfl h
  | cons q rest =>
    unfold objOfPairs inferPairs insertAllObj
    exact insertAllObj_ne_nil _ _ (insertObj_ne_nil _ _ _)

theorem addRel_single (d : Document) (p : Str) (v : Value)
    (hp : simpleSeg p = true) :
    addRelativeSection d p v =
      some ⟨d.root, insertObj d.relativeSections p v⟩ := by
  unfold addRelativeSection
  rw [parsePath_single p hp]
  rfl

theorem kvToks_ne_nil (S : List (Str × Str)) (h : S ≠ []) :
    kvToks S ≠ [] := by
  cases S with
  | nil => exact absurd rfl h
  | cons q r => simp [kvToks]

theorem processSection_kv (cfg : ParserCfg) (S : List (Str × Str)) (p : Str)
    (isAbs : Bool) (doc : Document) (hS : S ≠ [])
    (hk : ∀ kv ∈ S, '.' ∉ kv.1) :
    processSection cfg (kvToks S) p isAbs doc =
      (if isAbs then mergeFields p doc (objOfPairs cfg S)
       else liftPanic (addRelativeSection doc p (.obj (objOfPairs cfg S)))) := by
  have hts : kvToks S ≠ [] := kvToks_ne_nil S hS
  have hfil : (kvToks S).filter (fun t => ¬ isBlankTok t) = kvToks S := by
    rw [List.filter_eq_self]
    intro t ht
    rw [kvToks_no_blank S t ht]
    rfl
  have hbs : hasBlankLineSeparators (kvToks S) = false := by
    unfold hasBlankLineSeparators
    exact hbsGo_no_blank _ (kvToks_no_blank S) false false
  have hany : (kvToks S).any isContentTok = true := by
    cases S with
    | nil => exact absurd rfl hS
    | cons q r =>
      simp only [kvToks, List.map_cons, List.any_cons, Bool.or_eq_true]
      exact Or.inl rfl
  have hbp : buildPlainObject cfg (kvToks S) p isAbs doc =
      (if isAbs then mergeFields p doc (objOfPairs cfg S)
       else liftPanic (addRelativeSection doc p (.obj (objOfPairs cfg S)))) := by
    unfold buildPlainObject parseObject
    rw [parseObjectGo_kv cfg S [] hk]
    rfl
  unfold processSection
  rw [if_neg hts]
  simp only [hfil, if_neg hts, hany, hbs, if_true, Bool.false_eq_true,
    if_false]
  exact hbp

theorem parseTokensAux_nil (cfg : ParserCfg) (doc : Document) (cp : Str)
    (ca : Bool) (pending : List Token) :
    parseTokensAux cfg doc cp ca pending [] =
      (if pending = [] then .ok doc
       else processSection cfg pending cp ca doc) := rfl

theorem parseTokensAux_cons (cfg : ParserCfg) (doc : Document) (cp : Str)
    (ca : Bool) (pending : List Token) (t : Token) (rest : List Token) :
    parseTokensAux cfg doc cp ca pending (t :: rest) =
      (if isHeaderTok t then
        match
          (if pending = [] then .ok doc
           else processSection cfg pending cp ca doc : Except Fail Document)
        with
        | .ok d =>
          parseTokensAux cfg d (t.path.getD []) (t.isAbsolute.getD false) [] rest
        | .error e => .error e
      else parseTokensAux cfg doc cp ca (pending ++ [t]) rest) := rfl

theorem parseTokensAux_accum (cfg : ParserCfg) (S : List Token)
    (h : ∀ t ∈ S, isHeaderTok t = false) :
    ∀ (doc : Document) (cp : Str) (ca : Bool) (pending : List Token)
      (rest : List Token),
      parseTokensAux cfg doc cp ca pending (S ++ rest) =
        parseTokensAux cfg doc cp ca (pending ++ S) rest := by
  induction S with
  | nil => intro doc cp ca pending rest; simp
  | cons t S ih =>
    intro doc cp ca pending rest
    have ht := h t (List.mem_cons_self t S)
    rw [List.cons_append, parseTokensAux_cons, if_neg (by rw [ht]; simp),
      ih (fun x hx => h x (List.mem_cons_of_mem t hx))]
    simp

theorem insertObj_head_eq (p : Str) (w v : Value) (t : Obj) :
    insertObj ((p, w) :: t) p v = (p, v) :: t := by
  simp [insertObj]

theorem lookupObj_head_eq (p : Str) (w : Value) (t : Obj) :
    lookupObj ((p, w) :: t) p = some w := by
  simp [lookupObj]

/-- Claim C3: two absolute headers with the same (simple) path whose
sections are plain objects of simple keys merge their fields into the root,
the later section winning on shared keys; two relative headers with the same
path leave only the later section in relative_sections. -/
theorem c3_theorem (cfg : ParserCfg) (p : Str) (S1 S2 : List (Str × Str))
    (hp : simpleSeg p = true)
    (hks : ∀ kv ∈ S1 ++ S2, simpleSeg kv.1 = true)
    (h1 : S1 ≠ []) (h2 : S2 ≠ [])
    (hnd1 : (S1.map Prod.fst).Nodup) (hnd2 : (S2.map Prod.fst).Nodup) :
    (∃ d, parseTokens cfg
        (absHdrTok p :: (kvToks S1 ++ absHdrTok p :: kvToks S2)) = .ok d ∧
      ∀ k, simpleSeg k = true →
        docGet d (p ++ '.' :: k) =
          (match lookupPairs S2 k with
           | some v => some (inferType cfg v)
           | none => (lookupPairs S1 k).map (inferType cfg))) ∧
    (∃ d, parseTokens cfg
        (relHdrTok p :: (kvToks S1 ++ relHdrTok p :: kvToks S2)) = .ok d ∧
      ∃ m, lookupObj d.relativeSections p = some (.obj m) ∧
        ∀ k, lookupObj m k = (lookupPairs S2 k).map (inferType cfg)) := by
  have hks1 : ∀ kv ∈ S1, simpleSeg kv.1 = true :=
    fun kv hkv => hks kv (List.mem_append_left _ hkv)
  have hks2 : ∀ kv ∈ S2, simpleSeg kv.1 = true :=
    fun kv hkv => hks kv (List.mem_append_right _ hkv)
  have hdot1 : ∀ kv ∈ S1, '.' ∉ kv.1 :=
    fun kv hkv => (simpleSeg_spec _ (hks1 kv hkv)).2.1
  have hdot2 : ∀ kv ∈ S2, '.' ∉ kv.1 :=
    fun kv hkv => (simpleSeg_spec _ (hks2 kv hkv)).2.1
  constructor
  · -- absolute: fields of both sections merge, later wins
    refine ⟨⟨[(p, .obj (insertAllObj (insertAllObj [] (objOfPairs cfg S1))
        (objOfPairs cfg S2)))], []⟩, ?_, ?_⟩
    · have hps1 : processSection cfg (kvToks S1) p true emptyDoc =
          .ok ⟨[(p, .obj (insertAllObj [] (objOfPairs cfg S1)))], []⟩ := by
        rw [processSection_kv cfg S1 p true emptyDoc h1 hdot1, if_pos rfl]
        exact mergeFields_empty_root p hp (objOfPairs cfg S1)
          (objOfPairs_fields cfg S1 hks1) (objOfPairs_ne_nil cfg S1 h1) []
      have hps2 : processSection cfg (kvToks S2) p true
          ⟨[(p, .obj (insertAllObj [] (objOfPairs cfg S1)))], []⟩ =
          .ok ⟨[(p, .obj (insertAllObj (insertAllObj [] (objOfPairs cfg S1))
            (objOfPairs cfg S2)))], []⟩ := by
        rw [processSection_kv cfg S2 p true _ h2 hdot2, if_pos rfl]
        exact mergeFields_at p hp (objOfPairs cfg S2)
          (objOfPairs_fields cfg S2 hks2) _ []
      unfold parseTokens
      rw [parseTokensAux_cons,
        if_pos (show isHeaderTok (absHdrTok p) = true from rfl), if_pos rfl]
      show parseTokensAux cfg emptyDoc p true []
        (kvToks S1 ++ absHdrTok p :: kvToks S2) = _
      rw [parseTokensAux_accum cfg (kvToks S1) (kvToks_no_header S1),
        List.nil_append, parseTokensAux_cons,
        if_pos (show isHeaderTok (absHdrTok p) = true from rfl),
        if_neg (kvToks_ne_nil S1 h1), hps1]
      show parseTokensAux cfg _ p true [] (kvToks S2) = _
      have hacc := parseTokensAux_accum cfg (kvToks S2) (kvToks_no_header S2)
        ⟨[(p, .obj (insertAllObj [] (objOfPairs cfg S1)))], []⟩ p true [] []
      rw [List.append_nil, List.nil_append] at hacc
      rw [hacc, parseTokensAux_nil, if_neg (kvToks_ne_nil S2 h2), hps2]
    · intro k hkk
      rw [docGet_pair p k _ [] hp hkk,
        lookup_insertAllObj (objOfPairs cfg S2) _ k
          (keysOf_objOfPairs_nodup cfg S2),
        lookup_objOfPairs cfg S2 k hnd2]
      rcases lookupPairs S2 k with _ | v
      · simp only [Option.map_none']
        rw [lookup_insertAllObj (objOfPairs cfg S1) [] k
            (keysOf_objOfPairs_nodup cfg S1),
          lookup_objOfPairs cfg S1 k hnd1]
        rcases lookupPairs S1 k with _ | w
        · simp [lookupObj]
        · rfl
      · rfl
  · -- relative: only the later section remains at the path
    refine ⟨⟨[], [(p, .obj (objOfPairs cfg S2))]⟩, ?_, objOfPairs cfg S2,
      lookupObj_head_eq p _ [], fun k => lookup_objOfPairs cfg S2 k hnd2⟩
    have hps1 : processSection cfg (kvToks S1) p false emptyDoc =
        .ok ⟨[], [(p, .obj (objOfPairs cfg S1))]⟩ := by
      rw [processSection_kv cfg S1 p false emptyDoc h1 hdot1, if_neg (by simp),
        addRel_single emptyDoc p _ hp]
      rfl
    have hps2 : processSection cfg (kvToks S2) p false
        ⟨[], [(p, .obj (objOfPairs cfg S1))]⟩ =
        .ok ⟨[], [(p, .obj (objOfPairs cfg S2))]⟩ := by
      rw [processSection_kv cfg S2 p false _ h2 hdot2, if_neg (by simp),
        addRel_single _ p _ hp]
      show (Except.ok (⟨[], insertObj [(p, .obj (objOfPairs cfg S1))] p
          (.obj (objOfPairs cfg S2))⟩ : Document) : Except Fail Document) =
        .ok ⟨[], [(p, .obj (objOfPairs cfg S2))]⟩
      rw [insertObj_head_eq]
    unfold parseTokens
    rw [parseTokensAux_cons,
      if_pos (show isHeaderTok (relHdrTok p) = true from rfl), if_pos rfl]
    show parseTokensAux cfg emptyDoc p false []
      (kvToks S1 ++ relHdrTok p :: kvToks S2) = _
    rw [parseTokensAux_accum cfg (kvToks S1) (kvToks_no_header S1),
      List.nil_append, parseTokensAux_cons,
      if_pos (show isHeaderTok (relHdrTok p) = true from rfl),
      if_neg (kvToks_ne_nil S1 h1), hps1]
    show parseTokensAux cfg _ p false [] (kvToks S2) = _
    have hacc := parseTokensAux_accum cfg (kvToks S2) (kvToks_no_header S2)
      ⟨[], [(p, .obj (objOfPairs cfg S1))]⟩ p false [] []
    rw [List.append_nil, List.nil_append] at hacc
    rw [hacc, parseTokensAux_nil, if_neg (kvToks_ne_nil S2 h2), hps2]

/-- Witness for C3 at a concrete path and two one-field sections. -/
theorem c3_witness :
    (simpleSeg ("config").data = true ∧
     (∀ kv ∈ [(("name").data, ("MyApp").data)] ++
         [(("version").data, ("2").data)], simpleSeg kv.1 = true) ∧
     ([(("name").data, ("MyApp").data)] : List (Str × Str)) ≠ [] ∧
     ([(("version").data, ("2").data)] : List (Str × Str)) ≠ []) ∧
    (∃ d, parseTokens defaultCfg
        (absHdrTok ("config").data ::
          (kvToks [(("name").data, ("MyApp").data)] ++
            absHdrTok ("config").data ::
              kvToks [(("version").data, ("2").data)])) = .ok d ∧
      docGet d (("config").data ++ '.' :: ("version").data) =
        some (inferType defaultCfg ("2").data) ∧
      docGet d (("config").data ++ '.' :: ("name").data) =
        some (inferType defaultCfg ("MyApp").data)) := by
  obtain ⟨⟨d, hd, hlook⟩, _⟩ := c3_theorem defaultCfg ("config").data
    [(("name").data, ("MyApp").data)] [(("version").data, ("2").data)]
    (by decide) (by decide) (by decide) (by decide) (by decide) (by decide)
  refine ⟨⟨by decide, by decide, by decide, by decide⟩, d, hd, ?_, ?_⟩
  · exact (hlook ("version").data (by decide)).trans (by rfl)
  · exact (hlook ("name").data (by decide)).trans (by rfl)

end ADF
